import Mathlib

/-!
# lunix (`src/unix.c`): a shallow embedding and its verified properties

The development follows the C source function by function.

* Machine integers are natural numbers (or integers for `int`), with the
  wraparound written out where the C arithmetic can wrap.
* A C string is the list of its characters up to (not including) the
  terminating NUL; a pointer into it is the list of the characters from that
  position on.
* Calls into the operating system are inputs of the model (an environment
  record or a generator function), never fixed values.
-/

namespace Lunix

/-! ## C library pieces used by `unixL_optmode` -/

/-- The largest `unsigned long` (LP64). -/
def ULONG_MAX : Nat := 2 ^ 64 - 1

/-- The largest `mode_t` (an unsigned 32-bit integer). -/
def MODE_MAX : Nat := 2 ^ 32 - 1

/-- Bitwise complement `~x` at the width of `mode_t`. -/
def modeNot (x : Nat) : Nat := MODE_MAX ^^^ x

/-- The file type mask `S_IFMT` of `<sys/stat.h>`. -/
def S_IFMT : Nat := 0o170000

/-- The directory file type `S_IFDIR` of `<sys/stat.h>`. -/
def S_IFDIR : Nat := 0o040000

/-- The macro `S_ISDIR(m)` of `<sys/stat.h>`. -/
def S_ISDIR (m : Nat) : Bool := (m &&& S_IFMT) == S_IFDIR

/-- The function `isspace` of `<ctype.h>` in the "C" locale: space, `\t`, `\n`, `\v`,
`\f`, `\r`. -/
def isspace (c : Char) : Bool :=
  c == ' ' || c == Char.ofNat 9 || c == Char.ofNat 10 || c == Char.ofNat 11 ||
    c == Char.ofNat 12 || c == Char.ofNat 13

/-- Value of a character as a digit of `strtoul` (letters count from ten), if it
is one. -/
def digitVal (c : Char) : Option Nat :=
  if '0' ≤ c ∧ c ≤ '9' then some (c.toNat - '0'.toNat)
  else if 'a' ≤ c ∧ c ≤ 'z' then some (c.toNat - 'a'.toNat + 10)
  else if 'A' ≤ c ∧ c ≤ 'Z' then some (c.toNat - 'A'.toNat + 10)
  else none

/-- The digit loop of `strtoul`: consume digits below `base`, accumulating the
exact value; returns the value and the unread rest. -/
def scanDigits (base : Nat) (acc : Nat) : List Char → Nat × List Char
  | [] => (acc, [])
  | c :: cs =>
    match digitVal c with
    | some d => if d < base then scanDigits base (acc * base + d) cs else (acc, c :: cs)
    | none => (acc, c :: cs)

/-- Sign of the subject sequence of `strtoul`: whether it is negated, and the
text after an optional `+` or `-`. -/
def scanSign : List Char → Bool × List Char
  | [] => (false, [])
  | c :: cs => if c = '-' then (true, cs) else if c = '+' then (false, cs) else (false, c :: cs)

/-- Whether a character is a hexadecimal digit. -/
def isxdigit (c : Char) : Bool :=
  match digitVal c with
  | some d => decide (d < 16)
  | none => false

/-- Base detection of `strtoul` called with base 0: `0x`/`0X` before a
hexadecimal digit selects 16 (and is skipped), another leading `0` selects 8,
anything else 10. -/
def scanBase : List Char → Nat × List Char
  | [] => (10, [])
  | c :: cs =>
    if c = '0' then
      match cs with
      | x :: h :: t =>
        if (x = 'x' ∨ x = 'X') ∧ isxdigit h = true then (16, h :: t)
        else (8, c :: cs)
      | _ => (8, c :: cs)
    else (10, c :: cs)

/-- The call `strtoul(fmt, &end, 0)` (ISO C): skip white space, read an optional
sign and a numeral whose base is detected from its prefix. Returns the value and
the text at `end`. Without any digit there is no conversion: the value is 0 and
`end` is `fmt`. A value above `ULONG_MAX` gives `ULONG_MAX`; a `-` negates in
`unsigned long`. -/
def strtoul (fmt : List Char) : Nat × List Char :=
  let sgn := scanSign (fmt.dropWhile isspace)
  let bs := scanBase sgn.2
  let r := scanDigits bs.1 0 bs.2
  if r.2.length = bs.2.length then (0, fmt)
  else if ULONG_MAX < r.1 then (ULONG_MAX, r.2)
  else if sgn.1 then ((2 ^ 64 - r.1) % 2 ^ 64, r.2)
  else (r.1, r.2)

/-- The call `luaL_checkstring` on a string argument hands the C code a
NUL-terminated string: the characters before the first NUL. -/
def luaL_checkstring (s : List Char) : List Char :=
  s.takeWhile (fun c => c != Char.ofNat 0)

/-! ## `unixL_optmode` -/

/-- The local variables of `unixL_optmode` that live across the parts of one
clause. `op` is the operator character as an `int`, 0 when none was read. -/
structure ModeVars where
  omask : Nat
  mask : Nat
  perm : Nat
  mode : Nat
  op : Nat
  deriving DecidableEq

/-- The first `for` loop of `unixL_optmode` (the who-selectors), up to and
including the operator; returns the variables and the unread text. -/
def whoScan (svtx : Nat) (v : ModeVars) : List Char → ModeVars × List Char
  | [] => (v, [])
  | c :: cs =>
    if c = 'u' then whoScan svtx { v with mask := v.mask ||| 0o4700 } cs
    else if c = 'g' then whoScan svtx { v with mask := v.mask ||| 0o2070 } cs
    else if c = 'o' then whoScan svtx { v with mask := v.mask ||| 0o0007 } cs
    else if c = 'a' then whoScan svtx { v with mask := v.mask ||| (0o6777 ||| svtx) } cs
    else if c = '+' ∨ c = '-' ∨ c = '=' then ({ v with op := c.toNat }, cs)
    else if c = ',' then whoScan svtx { v with omask := 0o755 } cs
    else whoScan svtx v cs

/-- The second `for` loop of `unixL_optmode` (label `perms`): the permission
letters. A character that is neither a letter of the table nor white space
ends the loop without being consumed. -/
def permScan (omode : Nat) (v : ModeVars) : List Char → ModeVars × List Char
  | [] => (v, [])
  | c :: cs =>
    if c = 'r' then permScan omode { v with perm := v.perm ||| 0o444 } cs
    else if c = 'w' then permScan omode { v with perm := v.perm ||| 0o222 } cs
    else if c = 'x' then permScan omode { v with perm := v.perm ||| 0o111 } cs
    else if c = 'X' then
      if S_ISDIR omode ∨ (omode &&& 0o111) ≠ 0 then
        permScan omode { v with perm := v.perm ||| 0o111 } cs
      else permScan omode v cs
    else if c = 's' then permScan omode { v with perm := v.perm ||| 0o6000 } cs
    else if c = 't' then permScan omode { v with perm := v.perm ||| 0o1000 } cs
    else if c = 'u' then
      permScan omode { v with perm := ((v.perm ||| (0o700 &&& omode)) |||
        ((0o700 &&& omode) >>> 3)) ||| ((0o700 &&& omode) >>> 6) } cs
    else if c = 'g' then
      permScan omode { v with perm := ((v.perm ||| ((0o070 &&& omode) <<< 3)) |||
        (0o070 &&& omode)) ||| ((0o070 &&& omode) >>> 3) } cs
    else if c = 'o' then
      permScan omode { v with perm := ((v.perm ||| (0o007 &&& omode)) |||
        ((0o007 &&& omode) <<< 3)) ||| ((0o007 &&& omode) <<< 6) } cs
    else if isspace c then permScan omode v cs
    else (v, c :: cs)

/-- The label `apply` of `unixL_optmode`: default the who mask, then combine
`mask & perm` into `mode` as the operator says. -/
def applyOp (svtx : Nat) (v : ModeVars) : ModeVars :=
  let mask := if v.mask = 0 then svtx ||| v.omask else v.mask
  let mode :=
    if v.op = '+'.toNat then v.mode ||| (mask &&& v.perm)
    else if v.op = '-'.toNat then v.mode &&& modeNot (mask &&& v.perm)
    else if v.op = '='.toNat then mask &&& v.perm
    else v.mode
  { v with mask := mask, mode := mode }

/-- One pass through the body of the `while (*fmt)` loop of `unixL_optmode`,
entered with the live variables `mode` and `mask`. -/
def clauseStep (omode svtx mode mask : Nat) (fmt : List Char) : ModeVars × List Char :=
  let v0 : ModeVars :=
    { omask := modeNot 0o1000 &&& mask, mask := 0, perm := 0, mode := mode, op := 0 }
  let w := whoScan svtx v0 fmt
  let p := permScan omode w.1 w.2
  (applyOp svtx p.1, p.2)

/-- The `while (*fmt)` loop of `unixL_optmode`, run for at most `fuel` passes;
`none` when the passes run out before the text does. -/
def modeLoop (omode svtx : Nat) : Nat → Nat → Nat → List Char → Option Nat
  | _, mode, _, [] => some mode
  | 0, _, _, _ :: _ => none
  | fuel + 1, mode, mask, c :: cs =>
    let s := clauseStep omode svtx mode mask (c :: cs)
    modeLoop omode svtx fuel s.1.mode s.1.mask s.2

/-- The symbolic part of `unixL_optmode` (from `svtx = ...` to `return mode`). -/
def symbolicMode (fuel : Nat) (fmt : List Char) (omode : Nat) : Option Nat :=
  let svtx := if S_ISDIR omode then 0o1000 else 0
  modeLoop omode svtx fuel 0 0o755 fmt

/-- The function `unixL_optmode(L, index, def, omode)`: `arg` is the Lua argument at
`index` (`none` for none or nil, otherwise a string). The loop is given one pass
per character of the string. -/
def unixL_optmode (arg : Option (List Char)) (dflt omode : Nat) : Option Nat :=
  match arg with
  | none => some dflt
  | some s =>
    let fmt := luaL_checkstring s
    let r := strtoul fmt
    let mode := 0o7777 &&& r.1
    if r.2 = [] ∧ r.2.length ≠ fmt.length then some mode
    else symbolicMode fmt.length fmt omode

/-! ## The RC4 fallback generator (`#if !HAVE_ARC4RANDOM`) -/

/-- The `struct unixL_Random`: `s` is the 256-byte table, `i` and `j` the two
`unsigned char` cursors, `count` the `int` countdown and `pid` the process id
recorded at the last seeding. -/
structure unixL_Random where
  fd : Int
  s : List Nat
  i : Nat
  j : Nat
  count : Int
  pid : Int
  deriving DecidableEq

/-- The function `arc4_init`: `memset` to zero, `fd = -1`, then `s[i] = i` for the 256
indices. -/
def arc4_init : unixL_Random :=
  let R : unixL_Random :=
    { fd := 0, s := List.replicate 256 0, i := 0, j := 0, count := 0, pid := 0 }
  let R := { R with fd := -1 }
  { R with s := (List.range 256).foldl (fun s i => s.set i (i % 256)) R.s }

/-- One pass through the body of the `for` loop of `arc4_addrandom`, with loop
counter `n`. The two cursors are `unsigned char`, so they wrap at 256. -/
def arc4_addrandom_step (src : List Nat) (len : Nat) (R : unixL_Random) (n : Nat) :
    unixL_Random :=
  let i := (R.i + 1) % 256
  let si := R.s.getD i 0
  let j := (R.j + (si + src.getD (n % len) 0)) % 256
  let s1 := R.s.set i (R.s.getD j 0)
  let s2 := s1.set j si
  { R with s := s2, i := i, j := j }

/-- The function `arc4_addrandom(R, src, len)`. In C the index `n % len` is undefined for
`len = 0`; the properties below are stated for `len ≠ 0`. -/
def arc4_addrandom (R : unixL_Random) (src : List Nat) (len : Nat) : unixL_Random :=
  let R0 := { R with i := (R.i + 255) % 256 }
  let R1 := (List.range 256).foldl (arc4_addrandom_step src len) R0
  { R1 with j := R1.i }

/-- The function `arc4_getbyte`: the new state and the byte returned. -/
def arc4_getbyte (R : unixL_Random) : unixL_Random × Nat :=
  let i := (R.i + 1) % 256
  let si := R.s.getD i 0
  let j := (R.j + 1) % 256
  let sj := R.s.getD j 0
  let s1 := R.s.set i sj
  let s2 := s1.set j si
  ({ R with s := s2, i := i, j := j }, s2.getD ((si + sj) &&& 0xff) 0)

/-- The loop `for (n = 0; n < k; n++) arc4_getbyte(R);` of `arc4_stir`, which throws
the bytes away. -/
def arc4_discard (k : Nat) (R : unixL_Random) : unixL_Random :=
  Nat.iterate (fun Q => (arc4_getbyte Q).1) k R

/-- What `arc4_stir` obtains from the operating system: the result of `getpid`,
the 128 bytes of `rnd.bytes` when control reaches the label `stir` (clock
readings mixed with whatever the entropy sources delivered), and the value
the entropy block leaves in `R->fd`. -/
structure StirEnv where
  pid : Int
  seed : List Nat
  fd : Int
  deriving DecidableEq

/-- The function `arc4_stir(R, force)`. The second component records whether control passed
the early `return`, that is, whether the key mixing at the label `stir` ran. -/
def arc4_stir (R : unixL_Random) (env : StirEnv) (force : Bool) : unixL_Random × Bool :=
  if 0 < R.count ∧ R.pid = env.pid ∧ force = false then (R, false)
  else
    let R1 := { R with fd := env.fd }
    let R2 := arc4_addrandom R1 env.seed 128
    let R3 := arc4_discard 1024 R2
    ({ R3 with count := 1600000, pid := env.pid }, true)

/-- The four `arc4_getbyte` calls of `arc4_getword`, assembled most significant
byte first. -/
def arc4_word (R : unixL_Random) : unixL_Random × Nat :=
  let b0 := arc4_getbyte R
  let b1 := arc4_getbyte b0.1
  let b2 := arc4_getbyte b1.1
  let b3 := arc4_getbyte b2.1
  (b3.1, (((b0.2 <<< 24) ||| (b1.2 <<< 16)) ||| (b2.2 <<< 8)) ||| b3.2)

/-- The function `arc4_getword`: the new state, the word, and whether the call re-seeded.
The countdown is an `int`; it is modelled without wraparound, which the
countdown never meets (see `arc4_count_range`). -/
def arc4_getword (R : unixL_Random) (env : StirEnv) : unixL_Random × Nat × Bool :=
  let R0 := { R with count := R.count - 4 }
  let st := arc4_stir R0 env false
  let w := arc4_word st.1
  (w.1, w.2, st.2)

/-- States of the generator reachable from `arc4_init` by the operations of the
source. -/
inductive Reachable : unixL_Random → Prop
  | init : Reachable arc4_init
  | addrandom (R : unixL_Random) (src : List Nat) (len : Nat) :
      Reachable R → len ≠ 0 → Reachable (arc4_addrandom R src len)
  | getbyte (R : unixL_Random) : Reachable R → Reachable (arc4_getbyte R).1
  | stir (R : unixL_Random) (env : StirEnv) (force : Bool) :
      Reachable R → Reachable (arc4_stir R env force).1
  | getword (R : unixL_Random) (env : StirEnv) :
      Reachable R → Reachable (arc4_getword R env).1

/-- States the module itself produces: `unixL_init` runs `arc4_init`, and afterwards
only `ARC4RANDOM()`, that is `arc4_getword`, touches the generator. -/
inductive Drawn : unixL_Random → Prop
  | init : Drawn arc4_init
  | getword (R : unixL_Random) (env : StirEnv) : Drawn R → Drawn (arc4_getword R env).1

/-! ## `unix_arc4random_uniform` -/

/-- Outcome of `unix_arc4random_uniform`: a number pushed (with the generator state
left behind), a division by zero, or a rejection loop that has not ended
within the passes allowed. -/
inductive UniformResult (σ : Type) where
  | pushed (v : Nat) (st : σ)
  | divisionByZero
  | stillRejecting
  deriving DecidableEq

/-- The threshold `min = -n % n` of `unix_arc4random_uniform`, in `uint32_t` arithmetic
(`n` is not zero here). -/
def uniformMin (n : Nat) : Nat := ((2 ^ 32 - n) % 2 ^ 32) % n

/-- The loop `for (;;) { r = ARC4RANDOM(); if (r >= min) break; }`, for at most
`fuel` draws; `gen` is `ARC4RANDOM()` as a function of the generator state. -/
def uniformLoop {σ : Type} (gen : σ → Nat × σ) (min : Nat) : Nat → σ → Option (Nat × σ)
  | 0, _ => none
  | fuel + 1, st =>
    let d := gen st
    if min ≤ d.1 then some d else uniformLoop gen min fuel d.2

/-- The function `unix_arc4random_uniform`. `bound` is `none` when the Lua argument is none or
nil, otherwise the `uint32_t` value `n` of the argument. -/
def unix_arc4random_uniform {σ : Type} (gen : σ → Nat × σ) (bound : Option Nat)
    (fuel : Nat) (st : σ) : UniformResult σ :=
  match bound with
  | none => UniformResult.pushed (gen st).1 (gen st).2
  | some n =>
    if n = 0 then UniformResult.divisionByZero
    else
      match uniformLoop gen (uniformMin n) fuel st with
      | none => UniformResult.stillRejecting
      | some d => UniformResult.pushed (d.1 % n) d.2

/-! ## `unix_arc4random_buf` -/

/-- The macro `howmany(x, y)`. -/
def howmany (x y : Nat) : Nat := (x + (y - 1)) / y

/-- The macro `MIN(a, b)`. -/
def MIN (a b : Nat) : Nat := if a < b then a else b

/-- The assignment `tmp.r[i] = r` seen through `tmp.c`: the four bytes of the word
`r` go to positions `4 * i` to `4 * i + 3` of the scratch block (least
significant byte first, as on a little-endian machine). -/
def storeWord (tmp : List Nat) (i r : Nat) : List Nat :=
  (((tmp.set (4 * i) (r % 256)).set (4 * i + 1) (r / 256 % 256)).set (4 * i + 2)
    (r / 65536 % 256)).set (4 * i + 3) (r / 16777216 % 256)

/-- The loop `while (i-- > 0) tmp.r[i] = ARC4RANDOM();` of `unix_arc4random_buf`. -/
def fillWords {σ : Type} (gen : σ → Nat × σ) : Nat → List Nat → σ → List Nat × σ
  | 0, tmp, st => (tmp, st)
  | i + 1, tmp, st => fillWords gen i (storeWord tmp i (gen st).1) (gen st).2

/-- The loop `while (n < count)` of `unix_arc4random_buf`, for at most `fuel`
passes: `out` is the Lua buffer `B`, `tmp` the 64 bytes of the scratch union.
The sizes are `sizeof tmp.c = 64` and `sizeof tmp.r = 64`. -/
def bufLoop {σ : Type} (gen : σ → Nat × σ) (count : Nat) :
    Nat → Nat → List Nat → List Nat → σ → Option (List Nat × σ)
  | 0, n, _, out, st => if n < count then none else some (out, st)
  | fuel + 1, n, tmp, out, st =>
    if n < count then
      let m := MIN (count - n) 64
      let i := howmany m 64
      let f := fillWords gen i tmp st
      bufLoop gen count fuel (n + m) f.1 (out ++ f.1.take m) f.2
    else some (out, st)

/-- The function `unix_arc4random_buf`: `count` is the Lua argument, `tmp` what the 64
bytes of the scratch block hold on entry; the result is the string pushed and
the generator state. The loop is given one pass per byte asked for. -/
def unix_arc4random_buf {σ : Type} (gen : σ → Nat × σ) (count : Nat) (tmp : List Nat)
    (st : σ) : Option (List Nat × σ) :=
  bufLoop gen count count 0 tmp [] st

/-! ## The growable lookup buffers -/

/-- The value `SIZE_MAX` for a `size_t` of `w` bits. -/
def SIZE_MAX (w : Nat) : Nat := 2 ^ w - 1

/-- The function `u_power2` for a `size_t` of `w` bits; the shift by 32 is compiled in
when `SIZE_MAX != 0xffffffffu`. Decrement and increment wrap at `2 ^ w`. -/
def u_power2 (w : Nat) (i : Nat) : Nat :=
  let i := (i + (2 ^ w - 1)) % 2 ^ w
  let i := i ||| (i >>> 1)
  let i := i ||| (i >>> 2)
  let i := i ||| (i >>> 4)
  let i := i ||| (i >>> 8)
  let i := i ||| (i >>> 16)
  let i := if SIZE_MAX w ≠ 0xffffffff then i ||| (i >>> 32) else i
  (i + 1) % 2 ^ w

/-- The error number `ENOMEM` of `<errno.h>` (Linux). -/
def ENOMEM : Int := 12

/-- The error number `ERANGE` of `<errno.h>` (Linux). -/
def ERANGE : Int := 34

/-- The error number `EBADF` of `<errno.h>` (Linux). -/
def EBADF : Int := 9

/-- A lookup buffer of `unixL_State` (`pw.buf`, `pw.bufsiz` or `gr.buf`,
`gr.bufsiz`): the pointer (0 is `NULL`) and the capacity. -/
structure LookupBuf where
  buf : Nat
  bufsiz : Nat
  deriving DecidableEq

/-- The function `u_realloc(buf, size, minsiz)` for a `size_t` of `w` bits. `realloc` is the
allocator: from the old pointer and the size asked for it gives the new
pointer (0 on failure) and the value it leaves in `errno`. Returns the error
and the buffer. -/
def u_realloc (w : Nat) (realloc : Nat → Nat → Nat × Int) (b : LookupBuf) (minsiz : Nat) :
    Int × LookupBuf :=
  if b.bufsiz = SIZE_MAX w then (ENOMEM, b)
  else
    let tmpsiz :=
      if b.bufsiz > 2 ^ w - 1 - (2 ^ w - 1) / 2 then SIZE_MAX w
      else MIN (u_power2 w ((b.bufsiz + 1) % 2 ^ w)) minsiz
    let tmp := realloc b.buf tmpsiz
    if tmp.1 = 0 then (tmp.2, b)
    else (0, { buf := tmp.1, bufsiz := tmpsiz })

/-- What a reentrant lookup (`getpwnam_r`, `getpwuid_r`, `getgrnam_r`,
`getgrgid_r`) hands back: its return value, the value of `errno` after the
call, and the record `*ent` points to (`none` for `NULL`). -/
structure LookupReply (ρ : Type) where
  ret : Int
  errno : Int
  ent : Option ρ

/-- The retry loop shared, word for word, by `unixL_getpwnam`, `unixL_getpwuid`,
`unixL_getgrnam` and `unixL_getgruid`, for at most `fuel` calls of the lookup.
`prim` is the reentrant lookup as a function of the buffer size passed to it.
Returns the error, `*ent` and the buffer; `none` while the loop is still
retrying when the calls run out. -/
def lookupLoop {ρ : Type} (w : Nat) (realloc : Nat → Nat → Nat × Int)
    (prim : Nat → LookupReply ρ) : Nat → LookupBuf → Option (Int × Option ρ × LookupBuf)
  | 0, _ => none
  | fuel + 1, b =>
    let r := prim b.bufsiz
    if r.ret ≠ 0 then
      if r.errno ≠ ERANGE then some (r.errno, r.ent, b)
      else
        let a := u_realloc w realloc b 128
        if a.1 ≠ 0 then some (a.1, r.ent, b)
        else lookupLoop w realloc prim fuel a.2
    else some (0, r.ent, b)

/-- A `struct passwd`, as far as the module reads it. -/
structure Passwd where
  pw_uid : Nat
  deriving DecidableEq

/-- A `struct group`, as far as the module reads it. -/
structure Group where
  gr_gid : Nat
  deriving DecidableEq

/-- The function `unixL_getpwnam`, on the buffer `U->pw`. -/
def unixL_getpwnam (w : Nat) (realloc : Nat → Nat → Nat × Int)
    (getpwnam_r : Nat → LookupReply Passwd) (fuel : Nat) (pw : LookupBuf) :
    Option (Int × Option Passwd × LookupBuf) :=
  lookupLoop w realloc getpwnam_r fuel pw

/-- The function `unixL_getpwuid`, on the buffer `U->pw`. -/
def unixL_getpwuid (w : Nat) (realloc : Nat → Nat → Nat × Int)
    (getpwuid_r : Nat → LookupReply Passwd) (fuel : Nat) (pw : LookupBuf) :
    Option (Int × Option Passwd × LookupBuf) :=
  lookupLoop w realloc getpwuid_r fuel pw

/-- The function `unixL_getgrnam`, on the buffer `U->gr`. -/
def unixL_getgrnam (w : Nat) (realloc : Nat → Nat → Nat × Int)
    (getgrnam_r : Nat → LookupReply Group) (fuel : Nat) (gr : LookupBuf) :
    Option (Int × Option Group × LookupBuf) :=
  lookupLoop w realloc getgrnam_r fuel gr

/-- The function `unixL_getgruid`, on the buffer `U->gr`. -/
def unixL_getgruid (w : Nat) (realloc : Nat → Nat → Nat × Int)
    (getgrgid_r : Nat → LookupReply Group) (fuel : Nat) (gr : LookupBuf) :
    Option (Int × Option Group × LookupBuf) :=
  lookupLoop w realloc getgrgid_r fuel gr

/-- The function `unixL_strerror3`: the text `strerror_r` gives, or, when it fails or gives
an empty text, `Unknown error: N` (`Undefined error: N` for error 0). -/
def unixL_strerror3 (strerror_r : Int → Option String) (error : Int) : String :=
  match strerror_r error with
  | some msg =>
    if msg = "" then
      (if error ≠ 0 then "Unknown error" else "Undefined error") ++ ": " ++ toString error
    else msg
  | none => (if error ≠ 0 then "Unknown error" else "Undefined error") ++ ": " ++ toString error

/-- How a call into the module ends: it returns a value, raises a Lua error with
a message (`luaL_error`), or has not ended within the steps allowed. -/
inductive Outcome (α : Type) where
  | returned (a : α)
  | raised (msg : String)
  | unfinished
  deriving DecidableEq

/-- The operating system as `u_close` sees it: the descriptors that are open and
the value of `errno`. -/
structure Sys where
  fds : List Int
  errno : Int
  deriving DecidableEq

/-- The system call `close(fd)`: an open descriptor is closed; otherwise the call
fails with `EBADF`. Returns the return value and the system. -/
def sys_close (fd : Int) (s : Sys) : Int × Sys :=
  if fd ∈ s.fds then (0, { s with fds := s.fds.erase fd })
  else (-1, { s with errno := EBADF })

/-- The function `u_close(fd)`: the return value, the value left in `*fd`, and the system. -/
def u_close (fd : Int) (s : Sys) : Int × Int × Sys :=
  if fd ≠ -1 then (s.errno, fd, s)
  else
    let error := s.errno
    let c := sys_close fd s
    (error, -1, { c.2 with errno := error })

/-- The function `arc4_destroy`. -/
def arc4_destroy (R : unixL_Random) (s : Sys) : unixL_Random × Sys :=
  let c := u_close R.fd s
  ({ R with fd := c.2.1 }, c.2.2)

/-- The `struct unixL_State`, without the error scratch fields: the two lookup buffers,
the pipe `ts.fd` and the generator. -/
structure unixL_State where
  pw : LookupBuf
  gr : LookupBuf
  ts0 : Int
  ts1 : Int
  random : unixL_Random
  deriving DecidableEq

/-- The function `unixL_destroy` (with the fallback generator compiled in). -/
def unixL_destroy (U : unixL_State) (s : Sys) : unixL_State × Sys :=
  let r := arc4_destroy U.random s
  let U := { U with random := r.1 }
  let U := { U with gr := { buf := 0, bufsiz := 0 } }
  let U := { U with pw := { buf := 0, bufsiz := 0 } }
  let c0 := u_close U.ts0 r.2
  let U := { U with ts0 := c0.2.1 }
  let c1 := u_close U.ts1 c0.2.2
  ({ U with ts1 := c1.2.1 }, c1.2.2)

/-! ## Descriptor flags: `u_setflag`, `u_getflags`, `u_fixflags` -/

/-- The flag constants of `<fcntl.h>` the code uses: `U_CLOEXEC` (which is
`O_CLOEXEC`, or `1LL << 32` where that is not defined), `O_NONBLOCK` and
`FD_CLOEXEC`. -/
structure FlagConsts where
  U_CLOEXEC : Nat
  O_NONBLOCK : Nat
  FD_CLOEXEC : Nat
  deriving DecidableEq

/-- The constants on Linux. -/
def linuxFlags : FlagConsts :=
  { U_CLOEXEC := 0o2000000, O_NONBLOCK := 0o4000, FD_CLOEXEC := 1 }

/-- The flags the kernel keeps for an open descriptor: the file status flags
(`F_GETFL`, `F_SETFL`) and the descriptor flags (`F_GETFD`, `F_SETFD`). A
descriptor that is not open is `none`, and every `fcntl` on it fails with
`EBADF`. -/
structure FdFlags where
  fl : Nat
  fd : Nat
  deriving DecidableEq

/-- Bitwise complement `~x` of a `long long` bit pattern. -/
def flagsNot (x : Nat) : Nat := (2 ^ 64 - 1) ^^^ x

/-- The function `u_setflag(fd, flag, enable)`: the error and the descriptor afterwards. -/
def u_setflag (k : FlagConsts) (d : Option FdFlags) (flag : Nat) (enable : Bool) :
    Int × Option FdFlags :=
  if flag &&& k.U_CLOEXEC ≠ 0 then
    match d with
    | none => (EBADF, none)
    | some f =>
      let flags := if enable then f.fd ||| k.FD_CLOEXEC else f.fd &&& flagsNot k.FD_CLOEXEC
      (0, some { f with fd := flags })
  else
    match d with
    | none => (EBADF, none)
    | some f =>
      let flags := if enable then f.fl ||| flag else f.fl &&& flagsNot flag
      (0, some { f with fl := flags })

/-- The function `u_getflags(fd, flags)`: the error, or the value stored in `*flags`. -/
def u_getflags (k : FlagConsts) (d : Option FdFlags) : Except Int Nat :=
  match d with
  | none => Except.error EBADF
  | some f =>
    if f.fl &&& k.U_CLOEXEC = 0 then
      if f.fd &&& k.FD_CLOEXEC ≠ 0 then Except.ok (f.fl ||| k.U_CLOEXEC) else Except.ok f.fl
    else Except.ok f.fl

/-- The function `u_fixflags(fd, flags)`: the error and the descriptor afterwards. -/
def u_fixflags (k : FlagConsts) (d : Option FdFlags) (flags : Nat) : Int × Option FdFlags :=
  if flags &&& k.U_CLOEXEC ≠ 0 ∨ flags &&& k.O_NONBLOCK ≠ 0 then
    match u_getflags k d with
    | Except.error e => (e, d)
    | Except.ok cur =>
      let s1 :=
        if flags &&& k.U_CLOEXEC ≠ 0 ∧ cur &&& k.U_CLOEXEC = 0 then u_setflag k d k.U_CLOEXEC true
        else (0, d)
      if s1.1 ≠ 0 then s1
      else
        let s2 :=
          if flags &&& k.O_NONBLOCK ≠ 0 ∧ cur &&& k.O_NONBLOCK = 0 then
            u_setflag k s1.2 k.O_NONBLOCK true
          else (0, s1.2)
        if s2.1 ≠ 0 then s2 else (0, s2.2)
  else (0, d)

/-! ## `unixL_getumask` -/

/-- The error number `ECHILD` of `<errno.h>` (Linux). -/
def ECHILD : Int := 10

/-- The error number `EINTR` of `<errno.h>` (Linux). -/
def EINTR : Int := 4

/-- The calling process as the probe sees it: its umask and the bytes waiting in
the module's pipe `U->ts.fd`. -/
structure Proc where
  umask : Nat
  pipe : List Nat
  deriving DecidableEq

/-- The bytes of a `mode_t` in memory (least significant first). -/
def modeBytes (m : Nat) : List Nat :=
  [m % 256, m / 256 % 256, m / 65536 % 256, m / 16777216 % 256]

/-- The `mode_t` held in four bytes of memory. -/
def bytesMode (b : List Nat) : Nat :=
  b.getD 0 0 + 256 * b.getD 1 0 + 65536 * b.getD 2 0 + 16777216 * b.getD 3 0

/-- The call `read(U->ts.fd[0], &mask, sizeof mask)` on the non-blocking pipe: the
return value, the bytes of `mask` afterwards and the bytes left in the pipe.
An empty pipe gives -1 (`EAGAIN`). -/
def readMask (mask pipe : List Nat) : Int × List Nat × List Nat :=
  if pipe = [] then (-1, mask, pipe)
  else ((pipe.take 4).length, pipe.take 4 ++ mask.drop (pipe.take 4).length, pipe.drop 4)

/-- The loop `do { n = read(...); } while (n > 0);` of `unixL_getumask`, for at most
`fuel` reads: the bytes of `mask` and of the pipe when it ends. -/
def drainPipe : Nat → List Nat → List Nat → Option (List Nat × List Nat)
  | 0, _, _ => none
  | fuel + 1, mask, pipe =>
    let r := readMask mask pipe
    if 0 < r.1 then drainPipe fuel r.2.1 r.2.2 else some (r.2.1, r.2.2)

/-- The loop around `waitpid` in `unixL_getumask`. `fails` lists the values of
`errno` of the calls that return -1, in order, before a call that succeeds.
`none` when the loop is left normally, otherwise the error to report. -/
def waitChild : List Int → Option Int
  | [] => none
  | e :: es => if e = ECHILD then none else if e = EINTR then waitChild es else some e

/-- The function `unixL_getumask` as the calling process lives it. `forked` is what `fork`
returns there (-1 with an `errno`, or the child's pid); the child, which
inherits the umask, runs `umask(0777)` on its own copy and writes the value it
got to the pipe before the parent's `waitpid` loop ends. `mask` is what the
local variable holds on entry. Returns the outcome and the process. -/
def unixL_getumask (strerror_r : Int → Option String) (forked : Int × Int)
    (fails : List Int) (mask : List Nat) (P : Proc) : Outcome Nat × Proc :=
  match drainPipe (P.pipe.length + 1) mask P.pipe with
  | none => (Outcome.unfinished, P)
  | some d =>
    let P1 : Proc := { P with pipe := d.2 }
    if forked.1 = -1 then
      (Outcome.raised ("getumask: " ++ unixL_strerror3 strerror_r forked.2), P1)
    else
      let P2 : Proc := { P1 with pipe := P1.pipe ++ modeBytes P1.umask }
      match waitChild fails with
      | some e => (Outcome.raised ("getumask: " ++ unixL_strerror3 strerror_r e), P2)
      | none =>
        let r := readMask d.1 P2.pipe
        if r.1 ≠ 4 then
          (Outcome.raised ("getumask: " ++
            (if r.1 = -1 then unixL_strerror3 strerror_r 11 else "short read")),
            { P2 with pipe := r.2.2 })
        else (Outcome.returned (bytesMode r.2.1), { P2 with pipe := r.2.2 })

/-! ## Sample lookups used to exercise the retry loop -/

/-- A reentrant lookup whose record needs 129 bytes of buffer: it signals
`ERANGE` while the buffer is smaller and finds `ent` otherwise. -/
def needs129 (ρ : Type) (ent : ρ) (cap : Nat) : LookupReply ρ :=
  if cap < 129 then { ret := ERANGE, errno := ERANGE, ent := none }
  else { ret := 0, errno := 0, ent := some ent }

/-- The octal digit characters. -/
def octalDigits : List Char := ['0', '1', '2', '3', '4', '5', '6', '7']

/-- Specification side: the value of a run of digit characters read in `base`. -/
def numeralValue (base : Nat) (ds : List Char) : Nat :=
  ds.foldl (fun a c => a * base + (c.toNat - '0'.toNat)) 0

/-- Specification side: the base in which a run of octal digits is read when the
base is detected from the prefix: 8 after a leading `0`, otherwise 10. -/
def numeralBase (ds : List Char) : Nat :=
  if ds.head? = some '0' then 8 else 10

/-- The characters of the symbolic mode grammar. -/
def symbolicChars : List Char :=
  ['u', 'g', 'o', 'a', '+', '-', '=', 'r', 'w', 'x', 'X', 's', 't', ',']

/-- Specification side: `WsInsert s t` says that `t` is `s` with white-space
characters inserted at any positions. -/
inductive WsInsert : List Char → List Char → Prop
  | nil : WsInsert [] []
  | keep (c : Char) (s t : List Char) : WsInsert s t → WsInsert (c :: s) (c :: t)
  | ins (w : Char) (s t : List Char) : isspace w = true → WsInsert s t → WsInsert s (w :: t)

/-- Specification side: a character that `strtoul` reads neither as `0` nor as a
decimal digit. -/
def nonDecimal (c : Char) : Bool :=
  c != '0' && (match digitVal c with
    | some d => decide (10 ≤ d)
    | none => true)

/-! ## `unixL_optmode`: numerals -/

theorem octal_facts {c : Char} (h : c ∈ octalDigits) :
    digitVal c = some (c.toNat - '0'.toNat) ∧ c.toNat - '0'.toNat < 8 ∧ isspace c = false ∧
      c ≠ '-' ∧ c ≠ '+' ∧ c ≠ 'x' ∧ c ≠ 'X' ∧ (c != Char.ofNat 0) = true := by
  simp only [octalDigits, List.mem_cons, List.mem_singleton, List.not_mem_nil, or_false] at h
  rcases h with rfl | rfl | rfl | rfl | rfl | rfl | rfl | rfl <;> decide

theorem scanDigits_run (base : Nat) (hb : 8 ≤ base) (ds : List Char)
    (h : ∀ c ∈ ds, c ∈ octalDigits) (acc : Nat) :
    scanDigits base acc ds =
      (ds.foldl (fun a c => a * base + (c.toNat - '0'.toNat)) acc, []) := by
  induction ds generalizing acc with
  | nil => rfl
  | cons c cs ih =>
    have hc := octal_facts (h c (List.mem_cons_self _ _))
    have hlt : c.toNat - '0'.toNat < base := lt_of_lt_of_le hc.2.1 hb
    simp only [scanDigits, hc.1, hlt, if_true, List.foldl_cons]
    exact ih (fun x hx => h x (List.mem_cons_of_mem _ hx)) _

theorem scanBase_run (ds : List Char) (h : ∀ c ∈ ds, c ∈ octalDigits) :
    scanBase ds = (numeralBase ds, ds) := by
  cases ds with
  | nil => rfl
  | cons c cs =>
    by_cases hc : c = '0'
    · subst hc
      cases cs with
      | nil => rfl
      | cons x t =>
        have hx := octal_facts (h x (by simp))
        cases t with
        | nil => rfl
        | cons y t => simp [scanBase, numeralBase, hx.2.2.2.2.2.1, hx.2.2.2.2.2.2.1]
    · simp [scanBase, numeralBase, hc]

theorem numeralBase_ge (ds : List Char) : 8 ≤ numeralBase ds := by
  unfold numeralBase; split <;> omega

theorem strtoul_run (ds : List Char) (hne : ds ≠ []) (h : ∀ c ∈ ds, c ∈ octalDigits)
    (hfit : numeralValue (numeralBase ds) ds ≤ ULONG_MAX) :
    strtoul ds = (numeralValue (numeralBase ds) ds, []) := by
  obtain ⟨c, cs, rfl⟩ := List.exists_cons_of_ne_nil hne
  have hc := octal_facts (h c (List.mem_cons_self _ _))
  have h1 : (c :: cs).dropWhile isspace = c :: cs := by
    simp [List.dropWhile_cons, hc.2.2.1]
  have h2 : scanSign (c :: cs) = (false, c :: cs) := by
    simp [scanSign, hc.2.2.2.1, hc.2.2.2.2.1]
  have h3 := scanDigits_run (numeralBase (c :: cs)) (numeralBase_ge _) (c :: cs) h 0
  have h4 : ¬ ULONG_MAX < numeralValue (numeralBase (c :: cs)) (c :: cs) := not_lt.mpr hfit
  unfold strtoul
  simp only [h1, h2, scanBase_run _ h, h3]
  simp [numeralValue] at h4 ⊢
  omega

theorem checkstring_run (ds : List Char) (h : ∀ c ∈ ds, c ∈ octalDigits) :
    luaL_checkstring ds = ds := by
  unfold luaL_checkstring
  rw [List.takeWhile_eq_self_iff]
  intro c hc
  exact (octal_facts (h c hc)).2.2.2.2.2.2.2

/-- A string that `strtoul` does not read completely goes to the symbolic
parser. -/
theorem optmode_symbolic (s : List Char) (dflt omode : Nat)
    (h : ¬((strtoul (luaL_checkstring s)).2 = [] ∧
      (strtoul (luaL_checkstring s)).2.length ≠ (luaL_checkstring s).length)) :
    unixL_optmode (some s) dflt omode =
      symbolicMode (luaL_checkstring s).length (luaL_checkstring s) omode := by
  simp only [unixL_optmode]
  rw [if_neg h]

/-- Claim C1, counterexample: the run of octal digits `755` is read in base 10,
so the result is 755 (octal 1363), not octal 755. -/
theorem optmode_755_is_decimal :
    unixL_optmode (some "755".toList) 0o644 0o100644 = some 0o1363 ∧
      unixL_optmode (some "755".toList) 0o644 0o100644 ≠ some 0o755 := by
  decide

/-- Claim C1, amended: for a non-empty run of octal digits whose numeral fits an
`unsigned long`, and every default and reference mode, `unixL_optmode` returns
the value of the run masked with 07777, the run being read in base 8 when it
starts with `0` and in base 10 otherwise. -/
theorem optmode_octal_run (ds : List Char) (dflt omode : Nat) (hne : ds ≠ [])
    (h : ∀ c ∈ ds, c ∈ octalDigits)
    (hfit : numeralValue (numeralBase ds) ds ≤ ULONG_MAX) :
    unixL_optmode (some ds) dflt omode =
      some (0o7777 &&& numeralValue (numeralBase ds) ds) := by
  simp only [unixL_optmode, checkstring_run ds h, strtoul_run ds hne h hfit]
  have hlen : 0 < ds.length := List.length_pos.mpr hne
  simp only [List.length_nil, true_and, ne_eq]
  rw [if_pos (by omega)]

/-- Claim C1, witness: `0755` is read in base 8 and gives octal 755. -/
theorem optmode_octal_run_witness :
    "0755".toList ≠ [] ∧ (∀ c ∈ "0755".toList, c ∈ octalDigits) ∧
      numeralValue (numeralBase "0755".toList) "0755".toList ≤ ULONG_MAX ∧
      unixL_optmode (some "0755".toList) 0o644 0o100644 = some 0o755 :=
  ⟨by decide, by decide, by decide,
    optmode_octal_run "0755".toList 0o644 0o100644 (by decide) (by decide) (by decide)⟩

/-- A numeral above `ULONG_MAX` is not reduced modulo 4096: `strtoul` saturates,
and the mask leaves 07777 (here the numeral is 2 ^ 66, whose low twelve bits
are 0). -/
theorem optmode_saturates :
    unixL_optmode (some "010000000000000000000000".toList) 0 0 = some 0o7777 ∧
      0o7777 &&& numeralValue 8 "010000000000000000000000".toList = 0 := by
  decide

/-! ## `unixL_optmode`: symbolic clauses on fixed strings -/

theorem and_700_mod (m : Nat) : 0o700 &&& m = 0o700 &&& (m % 512) := by
  have h := Nat.and_pow_two_sub_one_eq_mod m 9
  norm_num at h
  rw [← h, Nat.land_comm m 511, ← Nat.land_assoc]
  rfl

set_option maxRecDepth 100000 in
theorem copy_owner_bits : ∀ y < 512,
    0o2070 &&& (((0o700 &&& y) ||| ((0o700 &&& y) >>> 3)) ||| ((0o700 &&& y) >>> 6)) =
      (0o700 &&& y) >>> 3 := by
  decide

/-- Claim C2, counterexample: with previous mode 0644 and a regular file as
reference, `u+x` gives 0100, not 0744. -/
theorem optmode_u_plus_x_not_0744 :
    unixL_optmode (some "u+x".toList) 0o644 0o100644 = some 0o100 ∧
      unixL_optmode (some "u+x".toList) 0o644 0o100644 ≠ some 0o744 := by
  decide

/-- Claim C2, amended: `+` adds the selected bits to a working mode that starts at
0; the supplied default mode is returned only when the spec is absent. For every
default and reference mode `u+x` gives 0100. -/
theorem optmode_u_plus_x (dflt omode : Nat) :
    unixL_optmode (some "u+x".toList) dflt omode = some 0o100 ∧
      unixL_optmode none dflt omode = some dflt := by
  refine ⟨?_, rfl⟩
  rw [optmode_symbolic _ _ _ (by decide)]
  have h : luaL_checkstring "u+x".toList = ['u', '+', 'x'] := by decide
  rw [h]
  simp [symbolicMode, modeLoop, clauseStep, whoScan, permScan, applyOp]
  decide

/-- Claim C3, counterexample: with previous mode 0741 and a reference file of
mode 0741, `g=u` gives 0070, not 0771. -/
theorem optmode_g_eq_u_not_0771 :
    unixL_optmode (some "g=u".toList) 0o741 0o100741 = some 0o070 ∧
      unixL_optmode (some "g=u".toList) 0o741 0o100741 ≠ some 0o771 := by
  decide

/-- Claim C3, amended: a permission-position `u` copies the owner bits of the
reference mode; `g=u` gives exactly those bits moved into the group field, the
owner and other fields being 0, whatever the default mode. -/
theorem optmode_g_eq_u (dflt omode : Nat) :
    unixL_optmode (some "g=u".toList) dflt omode = some ((0o700 &&& omode) >>> 3) := by
  rw [optmode_symbolic _ _ _ (by decide)]
  have h : luaL_checkstring "g=u".toList = ['g', '=', 'u'] := by decide
  rw [h]
  simp [symbolicMode, modeLoop, clauseStep, whoScan, permScan, applyOp]
  rw [and_700_mod omode]
  have := copy_owner_bits (omode % 512) (Nat.mod_lt _ (by norm_num))
  simpa using this

theorem optmode_X_directory (dflt omode : Nat) (hd : S_ISDIR omode = true) :
    unixL_optmode (some "+X".toList) dflt omode = some 0o111 := by
  rw [optmode_symbolic _ _ _ (by decide)]
  have h : luaL_checkstring "+X".toList = ['+', 'X'] := by decide
  rw [h]
  simp [symbolicMode, hd, modeLoop, clauseStep, whoScan, permScan, applyOp, modeNot, MODE_MAX]
  decide

theorem optmode_X_plain (dflt omode : Nat) (hd : S_ISDIR omode = false)
    (hx : omode &&& 0o111 = 0) :
    unixL_optmode (some "+X".toList) dflt omode = some 0 := by
  rw [optmode_symbolic _ _ _ (by decide)]
  have h : luaL_checkstring "+X".toList = ['+', 'X'] := by decide
  rw [h]
  simp [symbolicMode, hd, hx, modeLoop, clauseStep, whoScan, permScan, applyOp, modeNot,
    MODE_MAX]

/-- Claim C4: with a directory as reference `+X` sets the owner, group and other
execute bits; with a reference that is no directory and has no execute bit,
`+X` sets no execute bit. -/
theorem optmode_conditional_execute (dflt omode : Nat) :
    (S_ISDIR omode = true →
      ∃ m, unixL_optmode (some "+X".toList) dflt omode = some m ∧ m &&& 0o111 = 0o111) ∧
    (S_ISDIR omode = false → omode &&& 0o111 = 0 →
      ∃ m, unixL_optmode (some "+X".toList) dflt omode = some m ∧ m &&& 0o111 = 0) :=
  ⟨fun hd => ⟨0o111, optmode_X_directory dflt omode hd, by decide⟩,
    fun hd hx => ⟨0, optmode_X_plain dflt omode hd hx, by decide⟩⟩

/-- Claim C4, witness: a directory of mode 0755 and a regular file of mode 0644,
previous mode 0600. -/
theorem optmode_conditional_execute_witness :
    (S_ISDIR 0o040755 = true ∧
      ∃ m, unixL_optmode (some "+X".toList) 0o600 0o040755 = some m ∧ m &&& 0o111 = 0o111) ∧
    (S_ISDIR 0o100644 = false ∧ 0o100644 &&& 0o111 = 0 ∧
      ∃ m, unixL_optmode (some "+X".toList) 0o600 0o100644 = some m ∧ m &&& 0o111 = 0) :=
  ⟨⟨by decide, (optmode_conditional_execute 0o600 0o040755).1 (by decide)⟩,
    ⟨by decide, by decide,
      (optmode_conditional_execute 0o600 0o100644).2 (by decide) (by decide)⟩⟩

/-- Claim C5: for every default mode and every reference mode, directory or not,
`a=r` gives 0444. -/
theorem optmode_a_eq_r (dflt omode : Nat) :
    unixL_optmode (some "a=r".toList) dflt omode = some 0o444 := by
  rw [optmode_symbolic _ _ _ (by decide)]
  have h : luaL_checkstring "a=r".toList = ['a', '=', 'r'] := by decide
  rw [h]
  cases hd : S_ISDIR omode <;>
    simp [symbolicMode, hd, modeLoop, clauseStep, whoScan, permScan, applyOp] <;> decide

/-! ## `unixL_optmode`: progress, totality and range of the result -/

theorem whoScan_length_le (svtx : Nat) (l : List Char) (v : ModeVars) :
    (whoScan svtx v l).2.length ≤ l.length := by
  induction l generalizing v with
  | nil => simp [whoScan]
  | cons c cs ih =>
    simp only [whoScan]
    split_ifs <;> first
      | exact Nat.le_succ_of_le (ih _)
      | simp

theorem whoScan_cons_length (svtx : Nat) (c : Char) (cs : List Char) (v : ModeVars) :
    (whoScan svtx v (c :: cs)).2.length ≤ cs.length := by
  simp only [whoScan]
  split_ifs <;> first
    | exact whoScan_length_le svtx cs _
    | simp

/-- One character of the `perms` loop: either it is consumed and only `perm`
changes, or the loop stops in front of it. -/
theorem permScan_cons (omode : Nat) (v : ModeVars) (c : Char) (cs : List Char) :
    (∃ p, permScan omode v (c :: cs) = permScan omode { v with perm := p } cs) ∨
      permScan omode v (c :: cs) = (v, c :: cs) := by
  simp only [permScan]
  by_cases h1 : c = 'r'
  · rw [if_pos h1]; exact Or.inl ⟨_, rfl⟩
  rw [if_neg h1]
  by_cases h2 : c = 'w'
  · rw [if_pos h2]; exact Or.inl ⟨_, rfl⟩
  rw [if_neg h2]
  by_cases h3 : c = 'x'
  · rw [if_pos h3]; exact Or.inl ⟨_, rfl⟩
  rw [if_neg h3]
  by_cases h4 : c = 'X'
  · rw [if_pos h4]
    by_cases hX : S_ISDIR omode = true ∨ omode &&& 0o111 ≠ 0
    · rw [if_pos hX]; exact Or.inl ⟨_, rfl⟩
    · rw [if_neg hX]; exact Or.inl ⟨v.perm, rfl⟩
  rw [if_neg h4]
  by_cases h5 : c = 's'
  · rw [if_pos h5]; exact Or.inl ⟨_, rfl⟩
  rw [if_neg h5]
  by_cases h6 : c = 't'
  · rw [if_pos h6]; exact Or.inl ⟨_, rfl⟩
  rw [if_neg h6]
  by_cases h7 : c = 'u'
  · rw [if_pos h7]; exact Or.inl ⟨_, rfl⟩
  rw [if_neg h7]
  by_cases h8 : c = 'g'
  · rw [if_pos h8]; exact Or.inl ⟨_, rfl⟩
  rw [if_neg h8]
  by_cases h9 : c = 'o'
  · rw [if_pos h9]; exact Or.inl ⟨_, rfl⟩
  rw [if_neg h9]
  by_cases hs : isspace c = true
  · rw [if_pos hs]; exact Or.inl ⟨v.perm, rfl⟩
  · rw [if_neg hs]; exact Or.inr rfl

theorem permScan_length_le (omode : Nat) (l : List Char) (v : ModeVars) :
    (permScan omode v l).2.length ≤ l.length := by
  induction l generalizing v with
  | nil => simp [permScan]
  | cons c cs ih =>
    rcases permScan_cons omode v c cs with ⟨p, hp⟩ | hp
    · rw [hp]; exact Nat.le_succ_of_le (ih _)
    · rw [hp]

theorem clauseStep_length (omode svtx mode mask : Nat) (c : Char) (cs : List Char) :
    (clauseStep omode svtx mode mask (c :: cs)).2.length < (c :: cs).length := by
  simp only [clauseStep, List.length_cons]
  exact Nat.lt_succ_of_le
    (le_trans (permScan_length_le omode _ _) (whoScan_cons_length svtx c cs _))

theorem modeLoop_fuel (omode svtx : Nat) (fuel : Nat) :
    ∀ (fmt : List Char) (mode mask : Nat), fmt.length ≤ fuel →
      ∃ m, modeLoop omode svtx fuel mode mask fmt = some m ∧
        ∀ fuel', fmt.length ≤ fuel' → modeLoop omode svtx fuel' mode mask fmt = some m := by
  induction fuel with
  | zero =>
    intro fmt mode mask h
    cases fmt with
    | nil => exact ⟨mode, by simp [modeLoop], fun f _ => by cases f <;> simp [modeLoop]⟩
    | cons c cs => simp at h
  | succ n ih =>
    intro fmt mode mask h
    cases fmt with
    | nil => exact ⟨mode, by simp [modeLoop], fun f _ => by cases f <;> simp [modeLoop]⟩
    | cons c cs =>
      have hlt := clauseStep_length omode svtx mode mask c cs
      simp only [List.length_cons] at h hlt
      obtain ⟨m, hm, hm'⟩ := ih (clauseStep omode svtx mode mask (c :: cs)).2
        (clauseStep omode svtx mode mask (c :: cs)).1.mode
        (clauseStep omode svtx mode mask (c :: cs)).1.mask (by omega)
      refine ⟨m, by simpa [modeLoop] using hm, ?_⟩
      intro f hf
      cases f with
      | zero => simp at hf
      | succ f =>
        simp only [List.length_cons] at hf
        simpa [modeLoop] using hm' f (by omega)

theorem whoScan_inv (svtx : Nat) (hs : svtx < 2 ^ 12) (l : List Char) (v : ModeVars)
    (hm : v.mask < 2 ^ 12) (ho : v.omask < 2 ^ 12) :
    (whoScan svtx v l).1.mask < 2 ^ 12 ∧ (whoScan svtx v l).1.omask < 2 ^ 12 ∧
      (whoScan svtx v l).1.mode = v.mode ∧ (whoScan svtx v l).1.perm = v.perm := by
  induction l generalizing v with
  | nil => exact ⟨hm, ho, rfl, rfl⟩
  | cons c cs ih =>
    simp only [whoScan]
    split_ifs
    · exact ih _ (Nat.or_lt_two_pow hm (by norm_num)) ho
    · exact ih _ (Nat.or_lt_two_pow hm (by norm_num)) ho
    · exact ih _ (Nat.or_lt_two_pow hm (by norm_num)) ho
    · exact ih _ (Nat.or_lt_two_pow hm (Nat.or_lt_two_pow (by norm_num) hs)) ho
    · exact ⟨hm, ho, rfl, rfl⟩
    · exact ih _ hm (by norm_num)
    · exact ih _ hm ho

theorem permScan_inv (omode : Nat) (l : List Char) (v : ModeVars) :
    (permScan omode v l).1.mask = v.mask ∧ (permScan omode v l).1.omask = v.omask ∧
      (permScan omode v l).1.mode = v.mode ∧ (permScan omode v l).1.op = v.op := by
  induction l generalizing v with
  | nil => simp [permScan]
  | cons c cs ih =>
    rcases permScan_cons omode v c cs with ⟨p, hp⟩ | hp
    · rw [hp]; exact ih _
    · rw [hp]; exact ⟨rfl, rfl, rfl, rfl⟩

theorem applyOp_bound (svtx : Nat) (hs : svtx < 2 ^ 12) (v : ModeVars)
    (hm : v.mask < 2 ^ 12) (ho : v.omask < 2 ^ 12) (hmode : v.mode < 2 ^ 12) :
    (applyOp svtx v).mask < 2 ^ 12 ∧ (applyOp svtx v).mode < 2 ^ 12 := by
  have hmask : (if v.mask = 0 then svtx ||| v.omask else v.mask) < 2 ^ 12 := by
    split_ifs
    · exact Nat.or_lt_two_pow hs ho
    · exact hm
  refine ⟨hmask, ?_⟩
  simp only [applyOp]
  split_ifs
  all_goals first
    | exact Nat.or_lt_two_pow hmode (lt_of_le_of_lt Nat.and_le_left (by assumption))
    | exact lt_of_le_of_lt Nat.and_le_left hmode
    | exact lt_of_le_of_lt Nat.and_le_left (by assumption)
    | exact hmode
    | exact Nat.or_lt_two_pow hmode (lt_of_le_of_lt Nat.and_le_left (Nat.or_lt_two_pow hs ho))
    | exact lt_of_le_of_lt Nat.and_le_left (Nat.or_lt_two_pow hs ho)

theorem clauseStep_bound (omode svtx mode mask : Nat) (hs : svtx < 2 ^ 12)
    (hmode : mode < 2 ^ 12) (hmask : mask < 2 ^ 12) (fmt : List Char) :
    (clauseStep omode svtx mode mask fmt).1.mask < 2 ^ 12 ∧
      (clauseStep omode svtx mode mask fmt).1.mode < 2 ^ 12 := by
  have ho : modeNot 0o1000 &&& mask < 2 ^ 12 := lt_of_le_of_lt Nat.and_le_right hmask
  have hw := whoScan_inv svtx hs fmt
    { omask := modeNot 0o1000 &&& mask, mask := 0, perm := 0, mode := mode, op := 0 }
    (by norm_num) ho
  have hp := permScan_inv omode
    (whoScan svtx
      { omask := modeNot 0o1000 &&& mask, mask := 0, perm := 0, mode := mode, op := 0 } fmt).2
    (whoScan svtx
      { omask := modeNot 0o1000 &&& mask, mask := 0, perm := 0, mode := mode, op := 0 } fmt).1
  simp only [clauseStep]
  apply applyOp_bound svtx hs
  · rw [hp.1]; exact hw.1
  · rw [hp.2.1]; exact hw.2.1
  · rw [hp.2.2.1, hw.2.2.1]; exact hmode

theorem modeLoop_bound (omode svtx : Nat) (hs : svtx < 2 ^ 12) (fuel : Nat) :
    ∀ (fmt : List Char) (mode mask m : Nat), mode < 2 ^ 12 → mask < 2 ^ 12 →
      modeLoop omode svtx fuel mode mask fmt = some m → m < 2 ^ 12 := by
  induction fuel with
  | zero =>
    intro fmt mode mask m hmode _ h
    cases fmt with
    | nil => simp only [modeLoop, Option.some.injEq] at h; omega
    | cons c cs => simp [modeLoop] at h
  | succ n ih =>
    intro fmt mode mask m hmode hmask h
    cases fmt with
    | nil => simp only [modeLoop, Option.some.injEq] at h; omega
    | cons c cs =>
      simp only [modeLoop] at h
      have hb := clauseStep_bound omode svtx mode mask hs hmode hmask (c :: cs)
      exact ih _ _ _ m hb.2 hb.1 h

theorem symbolicMode_bound (fuel : Nat) (fmt : List Char) (omode m : Nat)
    (h : symbolicMode fuel fmt omode = some m) : m < 2 ^ 12 := by
  simp only [symbolicMode] at h
  refine modeLoop_bound omode _ ?_ fuel fmt 0 0o755 m (by norm_num) (by norm_num) h
  split <;> norm_num

theorem symbolicMode_fuel (fmt : List Char) (omode : Nat) :
    ∃ m, symbolicMode fmt.length fmt omode = some m ∧
      ∀ fuel, fmt.length ≤ fuel → symbolicMode fuel fmt omode = some m := by
  simp only [symbolicMode]
  exact modeLoop_fuel omode _ fmt.length fmt 0 0o755 (le_refl _)

/-- Claim C6: `unixL_optmode` is total. For every string and every default and
reference mode it returns a mode (within the twelve mode bits); a string that
is not a complete numeral is handed to the symbolic parser, which needs no
more passes than the string has characters (more passes change nothing),
because every pass of its outer loop consumes at least one character. -/
theorem optmode_total :
    (∀ (s : List Char) (dflt omode : Nat),
      ∃ m, unixL_optmode (some s) dflt omode = some m ∧ m < 2 ^ 12) ∧
    (∀ (s : List Char) (dflt omode : Nat),
      ¬((strtoul (luaL_checkstring s)).2 = [] ∧
        (strtoul (luaL_checkstring s)).2.length ≠ (luaL_checkstring s).length) →
      ∃ m, unixL_optmode (some s) dflt omode = some m ∧
        ∀ fuel, (luaL_checkstring s).length ≤ fuel →
          symbolicMode fuel (luaL_checkstring s) omode = some m) ∧
    (∀ (omode svtx mode mask : Nat) (c : Char) (cs : List Char),
      (clauseStep omode svtx mode mask (c :: cs)).2.length < (c :: cs).length) := by
  refine ⟨?_, ?_, clauseStep_length⟩
  · intro s dflt omode
    by_cases hnum : (strtoul (luaL_checkstring s)).2 = [] ∧
        (strtoul (luaL_checkstring s)).2.length ≠ (luaL_checkstring s).length
    · refine ⟨0o7777 &&& (strtoul (luaL_checkstring s)).1, ?_, ?_⟩
      · simp only [unixL_optmode]
        rw [if_pos hnum]
      · exact lt_of_le_of_lt Nat.and_le_left (by norm_num)
    · obtain ⟨m, hm, _⟩ := symbolicMode_fuel (luaL_checkstring s) omode
      refine ⟨m, ?_, symbolicMode_bound _ _ _ _ hm⟩
      rw [optmode_symbolic s dflt omode hnum]
      exact hm
  · intro s dflt omode hnum
    obtain ⟨m, hm, hm'⟩ := symbolicMode_fuel (luaL_checkstring s) omode
    refine ⟨m, ?_, hm'⟩
    rw [optmode_symbolic s dflt omode hnum]
    exact hm

/-- Claim C6, witness: the malformed numeral `0x` is handed to the symbolic
parser and yields mode 0. -/
theorem optmode_total_witness :
    ¬((strtoul (luaL_checkstring "0x".toList)).2 = [] ∧
      (strtoul (luaL_checkstring "0x".toList)).2.length ≠
        (luaL_checkstring "0x".toList).length) ∧
    (∃ m, unixL_optmode (some "0x".toList) 0o644 0o100644 = some m ∧
      ∀ fuel, (luaL_checkstring "0x".toList).length ≤ fuel →
        symbolicMode fuel (luaL_checkstring "0x".toList) 0o100644 = some m) :=
  ⟨by decide, optmode_total.2.1 "0x".toList 0o644 0o100644 (by decide)⟩

/-! ## The generator: the table stays a permutation -/

set_option maxRecDepth 1000000 in
theorem arc4_init_table : arc4_init.s = List.range 256 := by decide

theorem arc4_init_fields : arc4_init.count = 0 ∧ arc4_init.pid = 0 ∧ arc4_init.fd = -1 :=
  ⟨rfl, rfl, rfl⟩

/-- Exchanging two entries of a list gives a permutation of it. -/
theorem swap_perm (l : List Nat) (i j : Nat) (hi : i < l.length) (hj : j < l.length) :
    ((l.set i (l.getD j 0)).set j (l.getD i 0)).Perm l := by
  rw [List.perm_iff_count]
  intro a
  have hj' : j < (l.set i (l.getD j 0)).length := by simpa using hj
  rw [List.count_set _ _ _ _ hj', List.count_set _ _ _ _ hi]
  have hget : (l.set i (l.getD j 0))[j] = l[j] := by
    rw [List.getElem_set]
    split
    · rw [List.getD_eq_getElem _ _ hj]
    · rfl
  rw [hget, List.getD_eq_getElem _ _ hj, List.getD_eq_getElem _ _ hi]
  have hle : (if l[i] == a then 1 else 0) ≤ l.count a := by
    have := List.boole_getElem_le_countP (fun x => x == a) l i hi
    simpa [List.count_eq_countP] using this
  omega

theorem table_swap_perm (l : List Nat) (i j : Nat)
    (h : l.Perm (List.range 256)) (hi : i < 256) (hj : j < 256) :
    ((l.set i (l.getD j 0)).set j (l.getD i 0)).Perm (List.range 256) := by
  have hlen : l.length = 256 := by simpa using h.length_eq
  exact (swap_perm l i j (by omega) (by omega)).trans h

theorem addrandom_step_perm (src : List Nat) (len : Nat) (R : unixL_Random) (n : Nat)
    (h : R.s.Perm (List.range 256)) :
    (arc4_addrandom_step src len R n).s.Perm (List.range 256) := by
  simp only [arc4_addrandom_step]
  exact table_swap_perm _ _ _ h (Nat.mod_lt _ (by norm_num)) (Nat.mod_lt _ (by norm_num))

theorem foldl_perm (f : unixL_Random → Nat → unixL_Random)
    (hf : ∀ R n, R.s.Perm (List.range 256) → (f R n).s.Perm (List.range 256))
    (ns : List Nat) (R : unixL_Random) (h : R.s.Perm (List.range 256)) :
    (ns.foldl f R).s.Perm (List.range 256) := by
  induction ns generalizing R with
  | nil => exact h
  | cons n ns ih => exact ih _ (hf R n h)

theorem addrandom_perm (R : unixL_Random) (src : List Nat) (len : Nat)
    (h : R.s.Perm (List.range 256)) :
    (arc4_addrandom R src len).s.Perm (List.range 256) := by
  simp only [arc4_addrandom]
  exact foldl_perm _ (fun Q n hQ => addrandom_step_perm src len Q n hQ) _ _ h

theorem getbyte_perm (R : unixL_Random) (h : R.s.Perm (List.range 256)) :
    (arc4_getbyte R).1.s.Perm (List.range 256) := by
  simp only [arc4_getbyte]
  exact table_swap_perm _ _ _ h (Nat.mod_lt _ (by norm_num)) (Nat.mod_lt _ (by norm_num))

theorem discard_perm (k : Nat) (R : unixL_Random) (h : R.s.Perm (List.range 256)) :
    (arc4_discard k R).s.Perm (List.range 256) := by
  unfold arc4_discard
  induction k generalizing R with
  | zero => exact h
  | succ k ih => exact ih _ (getbyte_perm R h)

theorem stir_eq (R : unixL_Random) (env : StirEnv) (force : Bool) :
    arc4_stir R env force =
      if 0 < R.count ∧ R.pid = env.pid ∧ force = false then (R, false)
      else ({ arc4_discard 1024 (arc4_addrandom { R with fd := env.fd } env.seed 128) with
        count := 1600000, pid := env.pid }, true) := by
  unfold arc4_stir
  rfl

theorem update_table (D : unixL_Random) (c p : Int) (b : Bool) :
    (({ D with count := c, pid := p }, b) : unixL_Random × Bool).1.s = D.s := rfl

theorem stir_table (R : unixL_Random) (env : StirEnv) (force : Bool) :
    (arc4_stir R env force).1.s = R.s ∨
      (arc4_stir R env force).1.s =
        (arc4_discard 1024 (arc4_addrandom { R with fd := env.fd } env.seed 128)).s := by
  rw [stir_eq]
  split
  · exact Or.inl rfl
  · exact Or.inr (update_table
      (arc4_discard 1024 (arc4_addrandom { R with fd := env.fd } env.seed 128)) 1600000
      env.pid true)

theorem stir_perm (R : unixL_Random) (env : StirEnv) (force : Bool)
    (h : R.s.Perm (List.range 256)) :
    (arc4_stir R env force).1.s.Perm (List.range 256) := by
  rcases stir_table R env force with h1 | h1
  · rw [h1]; exact h
  · rw [h1]
    have h2 : (arc4_addrandom { R with fd := env.fd } env.seed 128).s.Perm (List.range 256) :=
      addrandom_perm _ _ _ h
    exact discard_perm 1024 _ h2

theorem word_perm (R : unixL_Random) (h : R.s.Perm (List.range 256)) :
    (arc4_word R).1.s.Perm (List.range 256) := by
  simp only [arc4_word]
  exact getbyte_perm _ (getbyte_perm _ (getbyte_perm _ (getbyte_perm _ h)))

theorem getword_perm (R : unixL_Random) (env : StirEnv) (h : R.s.Perm (List.range 256)) :
    (arc4_getword R env).1.s.Perm (List.range 256) := by
  simp only [arc4_getword]
  exact word_perm _ (stir_perm _ _ _ h)

theorem reachable_perm (R : unixL_Random) (h : Reachable R) : R.s.Perm (List.range 256) := by
  induction h with
  | init => rw [arc4_init_table]
  | addrandom R src len _ _ ih => exact addrandom_perm R src len ih
  | getbyte R _ ih => exact getbyte_perm R ih
  | stir R env force _ ih => exact stir_perm R env force ih
  | getword R env _ ih => exact getword_perm R env ih

/-- Claim C9: the table `s` is a permutation of 0..255 after `arc4_init`;
`arc4_addrandom` (for a seed block of non-zero length), `arc4_getbyte`,
`arc4_stir` and `arc4_getword` each keep it one; hence it is one in every
state reachable from `arc4_init`. -/
theorem arc4_table_permutation :
    arc4_init.s.Perm (List.range 256) ∧
    (∀ R : unixL_Random, R.s.Perm (List.range 256) →
      (∀ (src : List Nat) (len : Nat), len ≠ 0 →
        (arc4_addrandom R src len).s.Perm (List.range 256)) ∧
      (arc4_getbyte R).1.s.Perm (List.range 256) ∧
      (∀ (env : StirEnv) (force : Bool), (arc4_stir R env force).1.s.Perm (List.range 256)) ∧
      (∀ env : StirEnv, (arc4_getword R env).1.s.Perm (List.range 256))) ∧
    (∀ R : unixL_Random, Reachable R → R.s.Perm (List.range 256)) :=
  ⟨reachable_perm _ Reachable.init,
    fun R h => ⟨fun src len _ => addrandom_perm R src len h, getbyte_perm R h,
      fun env force => stir_perm R env force h, fun env => getword_perm R env h⟩,
    reachable_perm⟩

/-- Claim C9, witness: the state after one `arc4_getbyte` on the initial state is
reachable, and its table is a permutation. -/
theorem arc4_table_permutation_witness :
    Reachable (arc4_getbyte arc4_init).1 ∧
      (arc4_getbyte arc4_init).1.s.Perm (List.range 256) :=
  ⟨Reachable.getbyte _ Reachable.init,
    arc4_table_permutation.2.2 _ (Reachable.getbyte _ Reachable.init)⟩

/-! ## The generator: when `arc4_getword` re-seeds -/

theorem word_fields (R : unixL_Random) :
    (arc4_word R).1.count = R.count ∧ (arc4_word R).1.pid = R.pid ∧
      (arc4_word R).1.fd = R.fd := ⟨rfl, rfl, rfl⟩

theorem stir_skip (R : unixL_Random) (env : StirEnv) (hc : 0 < R.count)
    (hp : R.pid = env.pid) : arc4_stir R env false = (R, false) := by
  unfold arc4_stir
  rw [if_pos ⟨hc, hp, rfl⟩]

theorem stir_run (R : unixL_Random) (env : StirEnv) (h : ¬(0 < R.count ∧ R.pid = env.pid)) :
    arc4_stir R env false = arc4_stir R env true := by
  unfold arc4_stir
  rw [if_neg (fun hh => h ⟨hh.1, hh.2.1⟩), if_neg (fun hh => Bool.noConfusion hh.2.2)]

theorem stir_forced (R : unixL_Random) (env : StirEnv) :
    (arc4_stir R env true).2 = true ∧ (arc4_stir R env true).1.count = 1600000 ∧
      (arc4_stir R env true).1.pid = env.pid := by
  unfold arc4_stir
  rw [if_neg (fun hh => Bool.noConfusion hh.2.2)]
  exact ⟨rfl, rfl, rfl⟩

theorem getword_reseed (R : unixL_Random) (env : StirEnv) :
    ((arc4_getword R env).2.2 = true ↔ (R.pid ≠ env.pid ∨ R.count - 4 ≤ 0)) ∧
    ((arc4_getword R env).2.2 = true →
      (arc4_getword R env).1.count = 1600000 ∧ (arc4_getword R env).1.pid = env.pid ∧
      ((arc4_getword R env).1, (arc4_getword R env).2.1) =
        arc4_word (arc4_stir { R with count := R.count - 4 } env true).1) ∧
    ((arc4_getword R env).2.2 = false →
      (arc4_getword R env).1.count = R.count - 4 ∧ (arc4_getword R env).1.pid = R.pid ∧
      ((arc4_getword R env).1, (arc4_getword R env).2.1) =
        arc4_word { R with count := R.count - 4 }) := by
  by_cases hc : 0 < R.count - 4 ∧ R.pid = env.pid
  · have hs : arc4_stir { R with count := R.count - 4 } env false =
        ({ R with count := R.count - 4 }, false) := stir_skip _ env hc.1 hc.2
    simp only [arc4_getword, hs]
    refine ⟨⟨fun h => Bool.noConfusion h, ?_⟩, fun h => Bool.noConfusion h, fun _ => ?_⟩
    · rintro (h | h)
      · exact absurd hc.2 h
      · omega
    · exact ⟨(word_fields _).1, (word_fields _).2.1, trivial⟩
  · have hs : arc4_stir { R with count := R.count - 4 } env false =
        arc4_stir { R with count := R.count - 4 } env true := stir_run _ env hc
    have hf := stir_forced { R with count := R.count - 4 } env
    simp only [arc4_getword, hs, hf.1]
    refine ⟨⟨fun _ => ?_, fun _ => trivial⟩, fun _ => ?_, fun h => Bool.noConfusion h⟩
    · by_contra hcon
      push_neg at hcon
      exact hc ⟨by omega, hcon.1⟩
    · exact ⟨(word_fields _).1.trans hf.2.1, (word_fields _).2.1.trans hf.2.2, trivial⟩

/-- The countdown stays between 0 and 1600000 in every state the module
produces, so `R->count -= 4` never leaves the range of `int`. -/
theorem arc4_count_range (R : unixL_Random) (h : Drawn R) :
    0 ≤ R.count ∧ R.count ≤ 1600000 ∧ R.count % 4 = 0 := by
  induction h with
  | init => exact ⟨by decide, by decide, by decide⟩
  | getword R env _ ih =>
    obtain ⟨h1, h2, h3⟩ := getword_reseed R env
    cases hb : (arc4_getword R env).2.2 with
    | true =>
      rw [(h2 hb).1]
      exact ⟨by decide, by decide, by decide⟩
    | false =>
      rw [(h3 hb).1]
      have hn : ¬ (R.pid ≠ env.pid ∨ R.count - 4 ≤ 0) := by
        intro hh
        rw [h1.mpr hh] at hb
        exact Bool.noConfusion hb
      push_neg at hn
      omega

theorem count_mod_below (N n k : Nat) (hn : 0 < n) (hk : k < n) :
    ((Finset.range N).filter (fun r => r % n = k)).card =
      N / n + if k < N % n then 1 else 0 := by
  have h := Nat.count_modEq_card (b := N) hn k
  rw [Nat.count_eq_card_filter_range] at h
  rw [Nat.mod_eq_of_lt hk] at h
  rw [← h]
  congr 1
  apply Finset.filter_congr
  intro x _
  simp [Nat.ModEq, Nat.mod_eq_of_lt hk]

/-- Among the numbers below `N` that are at least `N % n`, every residue modulo
`n` occurs exactly `N / n` times. -/
theorem accepted_card (N n k : Nat) (hn : 0 < n) (hk : k < n) :
    ((Finset.range N).filter (fun r => N % n ≤ r ∧ r % n = k)).card = N / n := by
  have hA := count_mod_below N n k hn hk
  have hB := count_mod_below (N % n) n k hn hk
  rw [Nat.mod_mod, Nat.div_eq_of_lt (Nat.mod_lt N hn), Nat.zero_add] at hB
  have hsplit := Finset.filter_card_add_filter_neg_card_eq_card
    (s := (Finset.range N).filter (fun r => r % n = k)) (fun r => N % n ≤ r)
  rw [Finset.filter_filter, Finset.filter_filter] at hsplit
  have h1 : (Finset.range N).filter (fun r => r % n = k ∧ N % n ≤ r) =
      (Finset.range N).filter (fun r => N % n ≤ r ∧ r % n = k) := by
    apply Finset.filter_congr; intro x _; exact and_comm
  have h2 : (Finset.range N).filter (fun r => r % n = k ∧ ¬ N % n ≤ r) =
      (Finset.range (N % n)).filter (fun r => r % n = k) := by
    ext x
    simp only [Finset.mem_filter, Finset.mem_range, not_le]
    have := Nat.mod_le N n
    constructor
    · rintro ⟨_, h, h'⟩; exact ⟨h', h⟩
    · rintro ⟨h, h'⟩; exact ⟨by omega, h', h⟩
  rw [h1, h2, hA, hB] at hsplit
  omega

theorem uniformMin_eq (n : Nat) (h0 : 0 < n) (hn : n < 2 ^ 32) :
    uniformMin n = 2 ^ 32 % n := by
  unfold uniformMin
  rw [Nat.mod_eq_of_lt (Nat.sub_lt (by norm_num) h0)]
  exact (Nat.mod_eq_sub_mod (le_of_lt hn)).symm

theorem uniformLoop_accepts {σ : Type} (gen : σ → Nat × σ) (min : Nat) (fuel : Nat) :
    ∀ (st : σ) (d : Nat × σ), uniformLoop gen min fuel st = some d →
      min ≤ d.1 ∧ ∃ st0, gen st0 = d := by
  induction fuel with
  | zero => intro st d h; simp [uniformLoop] at h
  | succ k ih =>
    intro st d h
    simp only [uniformLoop] at h
    split at h
    · rename_i hacc
      simp only [Option.some.injEq] at h
      subst h
      exact ⟨hacc, st, rfl⟩
    · exact ih _ _ h

theorem uniform_first_accept {σ : Type} (gen : σ → Nat × σ) (n fuel : Nat) (st : σ)
    (h0 : n ≠ 0) (hacc : uniformMin n ≤ (gen st).1) :
    unix_arc4random_uniform gen (some n) (fuel + 1) st =
      UniformResult.pushed ((gen st).1 % n) (gen st).2 := by
  simp [unix_arc4random_uniform, h0, uniformLoop, hacc]

theorem uniform_pushed {σ : Type} (gen : σ → Nat × σ) (n fuel : Nat) (st st' : σ) (v : Nat)
    (h0 : n ≠ 0)
    (h : unix_arc4random_uniform gen (some n) fuel st = UniformResult.pushed v st') :
    ∃ r st0, gen st0 = (r, st') ∧ uniformMin n ≤ r ∧ v = r % n := by
  simp only [unix_arc4random_uniform, h0, if_false] at h
  split at h
  · cases h
  · rename_i d hd
    obtain ⟨hacc, st0, hst0⟩ := uniformLoop_accepts gen _ fuel st d hd
    simp only [UniformResult.pushed.injEq] at h
    exact ⟨d.1, st0, by rw [hst0, ← h.2], hacc, h.1.symm⟩

/-- Claim C7: for a bound `n` with `0 < n < 2 ^ 32` the threshold is
`2 ^ 32 mod n`; the function pushes `r mod n` for the first word `r` at or above
the threshold, and whatever it pushes is such a value and lies in `[0, n)`;
every `k` in `[0, n)` is the image of exactly `(2 ^ 32 - min) / n` accepted
32-bit words. -/
theorem uniform_rejection_unbiased (n : Nat) (h0 : 0 < n) (hn : n < 2 ^ 32) :
    uniformMin n = 2 ^ 32 % n ∧
    (∀ r : Nat, r < 2 ^ 32 → uniformMin n ≤ r → r % n < n) ∧
    (∀ k : Nat, k < n →
      ((Finset.range (2 ^ 32)).filter (fun r => uniformMin n ≤ r ∧ r % n = k)).card =
        (2 ^ 32 - uniformMin n) / n) ∧
    (∀ (σ : Type) (gen : σ → Nat × σ) (fuel : Nat) (st : σ), uniformMin n ≤ (gen st).1 →
      unix_arc4random_uniform gen (some n) (fuel + 1) st =
        UniformResult.pushed ((gen st).1 % n) (gen st).2) ∧
    (∀ (σ : Type) (gen : σ → Nat × σ) (fuel : Nat) (st st' : σ) (v : Nat),
      unix_arc4random_uniform gen (some n) fuel st = UniformResult.pushed v st' →
        v < n ∧ ∃ r st0, gen st0 = (r, st') ∧ uniformMin n ≤ r ∧ v = r % n) := by
  have hmin := uniformMin_eq n h0 hn
  refine ⟨hmin, fun r _ _ => Nat.mod_lt r h0, ?_, ?_, ?_⟩
  · intro k hk
    rw [hmin, accepted_card (2 ^ 32) n k h0 hk]
    exact Nat.div_eq_sub_mod_div
  · intro σ gen fuel st hacc
    exact uniform_first_accept gen n fuel st (Nat.pos_iff_ne_zero.mp h0) hacc
  · intro σ gen fuel st st' v h
    obtain ⟨r, st0, h1, h2, h3⟩ :=
      uniform_pushed gen n fuel st st' v (Nat.pos_iff_ne_zero.mp h0) h
    exact ⟨h3 ▸ Nat.mod_lt r h0, r, st0, h1, h2, h3⟩

/-- Claim C7, witness: the bound 6 has threshold 4, and a generator that counts
upwards from 3 has its first word rejected and pushes 4 mod 6. -/
theorem uniform_rejection_unbiased_witness :
    0 < 6 ∧ 6 < 2 ^ 32 ∧ uniformMin 6 = 4 ∧
      unix_arc4random_uniform (fun s : Nat => (s, s + 1)) (some 6) 5 3 =
        UniformResult.pushed 4 5 ∧
      ((Finset.range (2 ^ 32)).filter (fun r => uniformMin 6 ≤ r ∧ r % 6 = 1)).card =
        (2 ^ 32 - uniformMin 6) / 6 :=
  ⟨by decide, by decide, by decide, by decide,
    (uniform_rejection_unbiased 6 (by decide) (by decide)).2.2.1 1 (by decide)⟩

/-- Claim C8: with bound 0 the function does not return a raw word: it
evaluates `-n % n` with `n = 0`, a division by zero, whatever the generator;
only an absent bound yields the raw word. -/
theorem uniform_zero_bound_divides (σ : Type) (gen : σ → Nat × σ) (fuel : Nat) (st : σ) :
    unix_arc4random_uniform gen (some 0) fuel st = UniformResult.divisionByZero ∧
      unix_arc4random_uniform gen none fuel st = UniformResult.pushed (gen st).1 (gen st).2 :=
  ⟨rfl, rfl⟩

/-! ## `unix_arc4random_buf` -/

theorem storeWord_length (tmp : List Nat) (i r : Nat) :
    (storeWord tmp i r).length = tmp.length := by
  simp [storeWord]

theorem fillWords_length {σ : Type} (gen : σ → Nat × σ) (i : Nat) :
    ∀ (tmp : List Nat) (st : σ), (fillWords gen i tmp st).1.length = tmp.length := by
  induction i with
  | zero => intro tmp st; rfl
  | succ i ih =>
    intro tmp st
    simp only [fillWords]
    rw [ih, storeWord_length]

theorem MIN_le_right (a b : Nat) : MIN a b ≤ b := by
  unfold MIN; split <;> omega

theorem MIN_le_left (a b : Nat) : MIN a b ≤ a := by
  unfold MIN; split <;> omega

theorem MIN_pos (a b : Nat) (ha : 0 < a) (hb : 0 < b) : 0 < MIN a b := by
  unfold MIN; split <;> omega

/-- The string pushed has exactly `count` bytes. -/
theorem bufLoop_length {σ : Type} (gen : σ → Nat × σ) (count : Nat) (fuel : Nat) :
    ∀ (n : Nat) (tmp out : List Nat) (st : σ), tmp.length = 64 → n ≤ count →
      count - n ≤ fuel → out.length = n →
      ∃ r, bufLoop gen count fuel n tmp out st = some r ∧ r.1.length = count := by
  induction fuel with
  | zero =>
    intro n tmp out st _ hn hf hout
    have : ¬ n < count := by omega
    exact ⟨(out, st), by simp [bufLoop, this], by simp only []; omega⟩
  | succ fuel ih =>
    intro n tmp out st htmp hn hf hout
    by_cases hlt : n < count
    · simp only [bufLoop, hlt, if_true]
      have hm1 := MIN_le_left (count - n) 64
      have hm2 := MIN_le_right (count - n) 64
      have hm3 := MIN_pos (count - n) 64 (by omega) (by norm_num)
      apply ih
      · rw [fillWords_length, htmp]
      · omega
      · omega
      · rw [List.length_append, List.length_take, fillWords_length, htmp, hout]
        omega
    · exact ⟨(out, st), by simp [bufLoop, hlt], by simp only []; omega⟩

theorem arc4random_buf_length {σ : Type} (gen : σ → Nat × σ) (count : Nat)
    (tmp : List Nat) (st : σ) (htmp : tmp.length = 64) :
    ∃ r, unix_arc4random_buf gen count tmp st = some r ∧ r.1.length = count :=
  bufLoop_length gen count count 0 tmp [] st htmp (Nat.zero_le _) (by omega) rfl

/-- For a count of at most 64 one word is drawn, whatever the count: the string
is the scratch block with only its first four bytes replaced. -/
theorem arc4random_buf_one_word {σ : Type} (gen : σ → Nat × σ) (count : Nat)
    (tmp : List Nat) (st : σ) (h0 : 0 < count) (h64 : count ≤ 64) :
    unix_arc4random_buf gen count tmp st =
      some ((storeWord tmp 0 (gen st).1).take count, (gen st).2) := by
  obtain ⟨k, rfl⟩ : ∃ k, count = k + 1 := ⟨count - 1, by omega⟩
  have hm : MIN (k + 1 - 0) 64 = k + 1 := by
    unfold MIN; split <;> omega
  have hh : howmany (k + 1) 64 = 1 := by
    unfold howmany
    omega
  simp only [unix_arc4random_buf, bufLoop, Nat.zero_lt_succ, if_true, hm, hh, fillWords,
    List.nil_append, Nat.zero_add]
  cases k with
  | zero => simp [bufLoop]
  | succ k => simp [bufLoop]

/-- Claim C11, the code at a failing input: asked for 8 bytes, the function
draws one word; bytes 4 to 7 of the string are whatever the scratch block held
before the call, so two calls that differ only in the old scratch contents
push different strings. -/
theorem arc4random_buf_leaks_scratch :
    unix_arc4random_buf (fun s : Nat => (0x01020304, s + 1)) 8 (List.replicate 64 0xAA) 0 =
      some ([4, 3, 2, 1, 0xAA, 0xAA, 0xAA, 0xAA], 1) ∧
    unix_arc4random_buf (fun s : Nat => (0x01020304, s + 1)) 8 (List.replicate 64 0x55) 0 =
      some ([4, 3, 2, 1, 0x55, 0x55, 0x55, 0x55], 1) := by
  decide

/-! ## The growable lookup buffers -/

theorem u_realloc_small (w : Nat) (hw : 9 ≤ w) (realloc : Nat → Nat → Nat × Int)
    (hre : ∀ p n, (realloc p n).1 ≠ 0) (b : LookupBuf) (hb : b.bufsiz ≤ 128) :
    (u_realloc w realloc b 128).1 = 0 ∧ (u_realloc w realloc b 128).2.bufsiz ≤ 128 := by
  have hpow : 2 ^ 9 ≤ 2 ^ w := Nat.pow_le_pow_right (by norm_num) hw
  have h1 : b.bufsiz ≠ SIZE_MAX w := by
    unfold SIZE_MAX; omega
  have h2 : ¬ b.bufsiz > 2 ^ w - 1 - (2 ^ w - 1) / 2 := by omega
  simp only [u_realloc, h1, h2, if_false, hre, ne_eq]
  exact ⟨trivial, MIN_le_right _ _⟩

/-- A lookup that needs more than 128 bytes is retried for ever: the capacity
never passes 128. -/
theorem lookupLoop_stuck {ρ : Type} (w : Nat) (hw : 9 ≤ w) (realloc : Nat → Nat → Nat × Int)
    (hre : ∀ p n, (realloc p n).1 ≠ 0) (prim : Nat → LookupReply ρ)
    (hprim : ∀ cap, cap ≤ 128 → (prim cap).ret ≠ 0 ∧ (prim cap).errno = ERANGE)
    (fuel : Nat) : ∀ b : LookupBuf, b.bufsiz ≤ 128 → lookupLoop w realloc prim fuel b = none := by
  induction fuel with
  | zero => intro b _; rfl
  | succ fuel ih =>
    intro b hb
    have hp := hprim b.bufsiz hb
    have hr := u_realloc_small w hw realloc hre b hb
    simp only [lookupLoop, hp.1, hp.2, hr.1, ne_eq, not_false_eq_true, not_true_eq_false,
      if_true, if_false]
    exact ih _ hr.2

theorem needs129_range (ρ : Type) (ent : ρ) (cap : Nat) (h : cap ≤ 128) :
    (needs129 ρ ent cap).ret ≠ 0 ∧ (needs129 ρ ent cap).errno = ERANGE := by
  have : cap < 129 := by omega
  simp [needs129, this, ERANGE]

/-- Claim C12, the code at a failing input: for a record that needs 129 bytes
and an allocator that never fails, the retry loop of each of the four lookup
functions, started from capacity 0, has not returned after any number of
calls. -/
theorem lookup_129_never_returns (fuel : Nat) :
    unixL_getpwnam 64 (fun _ _ => (1, 0)) (needs129 Passwd ⟨1000⟩) fuel ⟨0, 0⟩ = none ∧
    unixL_getpwuid 64 (fun _ _ => (1, 0)) (needs129 Passwd ⟨1000⟩) fuel ⟨0, 0⟩ = none ∧
    unixL_getgrnam 64 (fun _ _ => (1, 0)) (needs129 Group ⟨100⟩) fuel ⟨0, 0⟩ = none ∧
    unixL_getgruid 64 (fun _ _ => (1, 0)) (needs129 Group ⟨100⟩) fuel ⟨0, 0⟩ = none :=
  ⟨lookupLoop_stuck 64 (by norm_num) _ (fun _ _ => by simp) _ (needs129_range _ _) fuel _
      (by simp),
    lookupLoop_stuck 64 (by norm_num) _ (fun _ _ => by simp) _ (needs129_range _ _) fuel _
      (by simp),
    lookupLoop_stuck 64 (by norm_num) _ (fun _ _ => by simp) _ (needs129_range _ _) fuel _
      (by simp),
    lookupLoop_stuck 64 (by norm_num) _ (fun _ _ => by simp) _ (needs129_range _ _) fuel _
      (by simp)⟩

/-- A record of at most 128 bytes is found after growth from capacity 0. -/
theorem lookup_100_returns :
    (lookupLoop 64 (fun _ _ => (1, 0))
      (fun cap => if cap < 100 then ({ ret := ERANGE, errno := ERANGE, ent := none } :
        LookupReply Passwd) else { ret := 0, errno := 0, ent := some ⟨1000⟩ }) 9 ⟨0, 0⟩) =
      some (0, some ⟨1000⟩, ⟨1, 128⟩) := by
  decide

/-- Claim C13, the code at a failing input: with capacity 256 and minimum 128 a
successful `u_realloc` leaves capacity 128, and with capacity 0 and minimum 128
it leaves capacity 1. -/
theorem u_realloc_shrinks :
    u_realloc 64 (fun _ _ => (1, 0)) ⟨1, 256⟩ 128 = (0, ⟨1, 128⟩) ∧
    u_realloc 64 (fun _ _ => (1, 0)) ⟨0, 0⟩ 128 = (0, ⟨1, 1⟩) := by
  decide

theorem u_realloc_full (w : Nat) (realloc : Nat → Nat → Nat × Int) (b : LookupBuf)
    (minsiz : Nat) (h : b.bufsiz = SIZE_MAX w) : u_realloc w realloc b minsiz = (ENOMEM, b) := by
  simp [u_realloc, h]

theorem u_realloc_saturates (w : Nat) (realloc : Nat → Nat → Nat × Int) (b : LookupBuf)
    (minsiz : Nat) (h1 : b.bufsiz ≠ SIZE_MAX w) (h2 : 2 ^ w - 1 - (2 ^ w - 1) / 2 < b.bufsiz)
    (hre : (realloc b.buf (SIZE_MAX w)).1 ≠ 0) :
    u_realloc w realloc b minsiz =
      (0, { buf := (realloc b.buf (SIZE_MAX w)).1, bufsiz := SIZE_MAX w }) := by
  simp [u_realloc, h1, h2, hre]

theorem u_close_open (fd : Int) (s : Sys) (h : fd ≠ -1) : u_close fd s = (s.errno, fd, s) := by
  simp [u_close, h]

/-- Claim C16, the code at a failing input: `u_close` on the open descriptor 3
returns at its first test, leaving the descriptor open and the variable 3; and
`unixL_destroy` on a state whose pipe is (3, 4) and whose entropy descriptor is 5
leaves all three open. -/
theorem u_close_leaves_open :
    u_close 3 ⟨[3], 0⟩ = (0, 3, ⟨[3], 0⟩) ∧
    (unixL_destroy
      { pw := ⟨0, 0⟩, gr := ⟨0, 0⟩, ts0 := 3, ts1 := 4, random := { arc4_init with fd := 5 } }
      ⟨[3, 4, 5], 0⟩).2.fds = [3, 4, 5] ∧
    (unixL_destroy
      { pw := ⟨0, 0⟩, gr := ⟨0, 0⟩, ts0 := 3, ts1 := 4, random := { arc4_init with fd := 5 } }
      ⟨[3, 4, 5], 0⟩).1.ts0 = 3 := by
  decide

/-! ## Descriptor flags -/

theorem or_and_self_right (x c : Nat) : (x ||| c) &&& c = c := by
  apply Nat.eq_of_testBit_eq
  intro i
  simp only [Nat.testBit_and, Nat.testBit_or]
  cases x.testBit i <;> cases c.testBit i <;> rfl

theorem or_and_of_disjoint (x c b : Nat) (h : c &&& b = 0) : (x ||| c) &&& b = x &&& b := by
  apply Nat.eq_of_testBit_eq
  intro i
  have hi : (c &&& b).testBit i = false := by rw [h]; simp
  simp only [Nat.testBit_and, Nat.testBit_or] at hi ⊢
  cases hx : x.testBit i <;> cases hc : c.testBit i <;> cases hb : b.testBit i <;>
    simp_all

theorem and_ne_zero_right {x c : Nat} (h : x &&& c ≠ 0) : c ≠ 0 := by
  intro hc
  rw [hc] at h
  simp at h

/-- What `u_fixflags` does to an open descriptor: it returns 0, the descriptor
flags gain `FD_CLOEXEC` when close-on-exec is asked for and not yet reported,
and the status flags gain `O_NONBLOCK` when that is asked for and not yet set. -/
theorem fixflags_open (k : FlagConsts) (hd : k.O_NONBLOCK &&& k.U_CLOEXEC = 0)
    (f : FdFlags) (flags cur : Nat) (hcur : u_getflags k (some f) = Except.ok cur) :
    u_fixflags k (some f) flags =
      (0, some
        { fl := if flags &&& k.O_NONBLOCK ≠ 0 ∧ cur &&& k.O_NONBLOCK = 0 then
            f.fl ||| k.O_NONBLOCK else f.fl,
          fd := if flags &&& k.U_CLOEXEC ≠ 0 ∧ cur &&& k.U_CLOEXEC = 0 then
            f.fd ||| k.FD_CLOEXEC else f.fd }) := by
  have hcx : k.U_CLOEXEC &&& k.U_CLOEXEC = k.U_CLOEXEC := Nat.and_self _
  by_cases h0 : flags &&& k.U_CLOEXEC ≠ 0 ∨ flags &&& k.O_NONBLOCK ≠ 0
  · simp only [u_fixflags, h0, if_true, hcur]
    by_cases h1 : flags &&& k.U_CLOEXEC ≠ 0 ∧ cur &&& k.U_CLOEXEC = 0
    · have hne : k.U_CLOEXEC ≠ 0 := and_ne_zero_right h1.1
      by_cases h2 : flags &&& k.O_NONBLOCK ≠ 0 ∧ cur &&& k.O_NONBLOCK = 0
      · simp [h1, h2, u_setflag, hcx, hne, hd]
      · simp [h1, h2, u_setflag, hcx, hne]
    · by_cases h2 : flags &&& k.O_NONBLOCK ≠ 0 ∧ cur &&& k.O_NONBLOCK = 0
      · simp [h1, h2, u_setflag, hd]
      · simp [h1, h2]
  · have h1 : ¬ (flags &&& k.U_CLOEXEC ≠ 0 ∧ cur &&& k.U_CLOEXEC = 0) := fun h => h0 (Or.inl h.1)
    have h2 : ¬ (flags &&& k.O_NONBLOCK ≠ 0 ∧ cur &&& k.O_NONBLOCK = 0) := fun h => h0 (Or.inr h.1)
    simp only [u_fixflags, h0, if_false, h1, h2]

theorem getflags_open (k : FlagConsts) (f : FdFlags) :
    ∃ cur, u_getflags k (some f) = Except.ok cur ∧
      (cur = f.fl ∨ cur = f.fl ||| k.U_CLOEXEC) ∧
      (cur &&& k.U_CLOEXEC = 0 → f.fl &&& k.U_CLOEXEC = 0) ∧
      (f.fd &&& k.FD_CLOEXEC ≠ 0 → k.U_CLOEXEC ≠ 0 → cur &&& k.U_CLOEXEC ≠ 0) := by
  simp only [u_getflags]
  by_cases h1 : f.fl &&& k.U_CLOEXEC = 0
  · by_cases h2 : f.fd &&& k.FD_CLOEXEC ≠ 0
    · refine ⟨f.fl ||| k.U_CLOEXEC, by simp [h1, h2], Or.inr rfl, ?_, ?_⟩
      · intro _; exact h1
      · intro _ hne; rw [or_and_self_right]; exact hne
    · refine ⟨f.fl, by simp [h1, h2], Or.inl rfl, fun h => h, fun h => absurd h h2⟩
  · exact ⟨f.fl, by simp [h1], Or.inl rfl, fun h => h, fun _ _ => h1⟩

theorem getflags_eq (k : FlagConsts) (f : FdFlags) :
    u_getflags k (some f) = Except.ok
      (if f.fl &&& k.U_CLOEXEC = 0 ∧ f.fd &&& k.FD_CLOEXEC ≠ 0 then f.fl ||| k.U_CLOEXEC
        else f.fl) := by
  simp only [u_getflags]
  by_cases h1 : f.fl &&& k.U_CLOEXEC = 0
  · by_cases h2 : f.fd &&& k.FD_CLOEXEC ≠ 0
    · simp [h1, h2]
    · simp [h1, h2]
  · simp [h1]

theorem getflags_props (k : FlagConsts) (hd : k.U_CLOEXEC &&& k.O_NONBLOCK = 0) (f : FdFlags) :
    ∃ g, u_getflags k (some f) = Except.ok g ∧
      g &&& k.O_NONBLOCK = f.fl &&& k.O_NONBLOCK ∧
      (∀ b, k.U_CLOEXEC &&& b = 0 → g &&& b = f.fl &&& b) ∧
      (g &&& k.U_CLOEXEC ≠ 0 ↔
        (f.fl &&& k.U_CLOEXEC ≠ 0 ∨ (f.fd &&& k.FD_CLOEXEC ≠ 0 ∧ k.U_CLOEXEC ≠ 0))) := by
  by_cases hA : f.fl &&& k.U_CLOEXEC = 0
  · by_cases hB : f.fd &&& k.FD_CLOEXEC ≠ 0
    · refine ⟨f.fl ||| k.U_CLOEXEC, by simp [u_getflags, hA, hB],
        or_and_of_disjoint _ _ _ hd, fun b hb => or_and_of_disjoint _ _ _ hb, ?_⟩
      rw [or_and_self_right]
      constructor
      · intro h; exact Or.inr ⟨hB, h⟩
      · rintro (h | h)
        · exact absurd hA h
        · exact h.2
    · refine ⟨f.fl, by simp [u_getflags, hA, hB], rfl, fun _ _ => rfl, ?_⟩
      constructor
      · intro h; exact absurd hA h
      · rintro (h | h)
        · exact h
        · exact absurd h.1 hB
  · refine ⟨f.fl, by simp [u_getflags, hA], rfl, fun _ _ => rfl, ?_⟩
    constructor
    · intro h; exact Or.inl h
    · intro _; exact hA

/-- Claim C17: for an open descriptor with any flags and any request,
`u_fixflags` returns 0 (where the two flag constants do not overlap and
`FD_CLOEXEC` is not 0); afterwards `u_getflags` reports close-on-exec if it was
asked for and non-blocking if it was asked for; every bit of the report
outside these two is as before; a request for neither changes nothing. On a
descriptor that is not open `u_fixflags` returns 0 only for a request naming
neither flag, and changes nothing. -/
theorem fixflags_effect (k : FlagConsts) (hfd : k.FD_CLOEXEC ≠ 0)
    (hd : k.O_NONBLOCK &&& k.U_CLOEXEC = 0) (flags : Nat) :
    (∀ f : FdFlags, ∃ f' g g', u_fixflags k (some f) flags = (0, some f') ∧
      u_getflags k (some f) = Except.ok g ∧ u_getflags k (some f') = Except.ok g' ∧
      (flags &&& k.U_CLOEXEC ≠ 0 → g' &&& k.U_CLOEXEC ≠ 0) ∧
      (flags &&& k.O_NONBLOCK ≠ 0 → g' &&& k.O_NONBLOCK ≠ 0) ∧
      (∀ b, k.U_CLOEXEC &&& b = 0 → k.O_NONBLOCK &&& b = 0 → g' &&& b = g &&& b) ∧
      (flags &&& k.U_CLOEXEC = 0 → flags &&& k.O_NONBLOCK = 0 → f' = f)) ∧
    (∀ d', u_fixflags k none flags = (0, d') →
      d' = none ∧ flags &&& k.U_CLOEXEC = 0 ∧ flags &&& k.O_NONBLOCK = 0) := by
  have hd' : k.U_CLOEXEC &&& k.O_NONBLOCK = 0 := by rw [Nat.land_comm]; exact hd
  constructor
  · intro f
    obtain ⟨g, hg, p1, p2, p3⟩ := getflags_props k hd' f
    have hfix := fixflags_open k hd f flags g hg
    obtain ⟨g', hg', r1, r2, r3⟩ := getflags_props k hd'
      { fl := if flags &&& k.O_NONBLOCK ≠ 0 ∧ g &&& k.O_NONBLOCK = 0 then
          f.fl ||| k.O_NONBLOCK else f.fl,
        fd := if flags &&& k.U_CLOEXEC ≠ 0 ∧ g &&& k.U_CLOEXEC = 0 then
          f.fd ||| k.FD_CLOEXEC else f.fd }
    simp only at r1 r2 r3
    have q1 : (if flags &&& k.O_NONBLOCK ≠ 0 ∧ g &&& k.O_NONBLOCK = 0 then
        f.fl ||| k.O_NONBLOCK else f.fl) &&& k.U_CLOEXEC = f.fl &&& k.U_CLOEXEC := by
      split
      · exact or_and_of_disjoint _ _ _ hd
      · rfl
    refine ⟨_, g, g', hfix, hg, hg', ?_, ?_, ?_, ?_⟩
    · intro hC
      have hne : k.U_CLOEXEC ≠ 0 := and_ne_zero_right hC
      rw [r3, q1]
      by_cases hg0 : g &&& k.U_CLOEXEC = 0
      · right
        rw [if_pos ⟨hC, hg0⟩, or_and_self_right]
        exact ⟨hfd, hne⟩
      · rcases p3.mp hg0 with h | h
        · exact Or.inl h
        · right
          rw [if_neg (fun hh => hg0 hh.2)]
          exact h
    · intro hD
      have hne : k.O_NONBLOCK ≠ 0 := and_ne_zero_right hD
      rw [r1]
      by_cases hg0 : g &&& k.O_NONBLOCK = 0
      · rw [if_pos ⟨hD, hg0⟩, or_and_self_right]
        exact hne
      · rw [if_neg (fun hh => hg0 hh.2), ← p1]
        exact hg0
    · intro b hb1 hb2
      rw [r2 b hb1, p2 b hb1]
      split
      · exact or_and_of_disjoint _ _ _ hb2
      · rfl
    · intro hC hD
      simp [hC, hD]
  · intro d' h
    by_cases h0 : flags &&& k.U_CLOEXEC ≠ 0 ∨ flags &&& k.O_NONBLOCK ≠ 0
    · simp [u_fixflags, h0, u_getflags, EBADF] at h
    · simp only [u_fixflags, h0, if_false, Prod.mk.injEq, true_and] at h
      push_neg at h0
      exact ⟨h.symm, h0.1, h0.2⟩

/-- Claim C17, witness: on Linux, a descriptor with status flags `O_RDWR` and no
descriptor flags, asked for both flags, ends with both reported. -/
theorem fixflags_effect_witness :
    linuxFlags.FD_CLOEXEC ≠ 0 ∧ linuxFlags.O_NONBLOCK &&& linuxFlags.U_CLOEXEC = 0 ∧
      u_fixflags linuxFlags (some ⟨2, 0⟩) (0o2000000 ||| 0o4000) = (0, some ⟨0o4002, 1⟩) ∧
      u_getflags linuxFlags (some ⟨0o4002, 1⟩) = Except.ok 0o2004002 ∧
      ∃ f' g g', u_fixflags linuxFlags (some ⟨2, 0⟩) (0o2000000 ||| 0o4000) = (0, some f') ∧
        u_getflags linuxFlags (some ⟨2, 0⟩) = Except.ok g ∧
        u_getflags linuxFlags (some f') = Except.ok g' ∧
        g' &&& linuxFlags.U_CLOEXEC ≠ 0 ∧ g' &&& linuxFlags.O_NONBLOCK ≠ 0 := by
  refine ⟨by decide, by decide, by decide, by rfl, ?_⟩
  obtain ⟨f', g, g', h1, h2, h3, h4, h5, _, _⟩ :=
    (fixflags_effect linuxFlags (by decide) (by decide) (0o2000000 ||| 0o4000)).1 ⟨2, 0⟩
  exact ⟨f', g, g', h1, h2, h3, h4 (by decide), h5 (by decide)⟩

/-! ## `unixL_getumask` -/

theorem readMask_nil (mask : List Nat) : readMask mask [] = (-1, mask, []) := by
  simp [readMask]

theorem readMask_cons (mask : List Nat) (b : Nat) (bs : List Nat) :
    0 < (readMask mask (b :: bs)).1 ∧
      (readMask mask (b :: bs)).2.2 = (b :: bs).drop 4 := by
  have ht : (b :: bs).take 4 = b :: bs.take 3 := rfl
  simp only [readMask, if_neg (List.cons_ne_nil b bs), ht, List.length_cons, and_true]
  exact_mod_cast Nat.succ_pos _

/-- The drain loop empties the pipe, whatever it held. -/
theorem drainPipe_empties (fuel : Nat) :
    ∀ (mask pipe : List Nat), pipe.length < fuel →
      ∃ mask', drainPipe fuel mask pipe = some (mask', []) := by
  induction fuel with
  | zero => intro mask pipe h; omega
  | succ fuel ih =>
    intro mask pipe h
    cases pipe with
    | nil => exact ⟨mask, by simp [drainPipe, readMask_nil]⟩
    | cons b bs =>
      have hr := readMask_cons mask b bs
      simp only [drainPipe, hr.1, if_true, hr.2]
      apply ih
      simp only [List.length_cons] at h
      have : ((b :: bs).drop 4).length ≤ bs.length := by
        simp only [List.length_drop, List.length_cons]
        omega
      omega

theorem bytesMode_modeBytes (m : Nat) (h : m < 2 ^ 32) (rest : List Nat) :
    bytesMode (modeBytes m ++ rest) = m := by
  simp [bytesMode, modeBytes]
  omega

theorem readMask_modeBytes (mask : List Nat) (m : Nat) :
    readMask mask (modeBytes m) = (4, modeBytes m ++ mask.drop 4, []) := by
  simp [readMask, modeBytes]

/-- Claim C18: for every umask `m` of the calling process and whatever an
earlier probe left in the pipe, when `fork` and the wait succeed
`unixL_getumask` returns `m`; afterwards the caller's umask is still `m` and
the pipe is empty. -/
theorem getumask_returns_umask (strerror_r : Int → Option String) (pid errno : Int)
    (fails : List Int) (mask stale : List Nat) (m : Nat) (hm : m < 2 ^ 32)
    (hfork : pid ≠ -1) (hwait : waitChild fails = none) :
    unixL_getumask strerror_r (pid, errno) fails mask { umask := m, pipe := stale } =
      (Outcome.returned m, { umask := m, pipe := [] }) := by
  obtain ⟨mask', hdrain⟩ := drainPipe_empties (stale.length + 1) mask stale (Nat.lt_succ_self _)
  simp only [unixL_getumask, hdrain, hfork, if_false, hwait, List.nil_append,
    readMask_modeBytes, ne_eq, not_true_eq_false, bytesMode_modeBytes m hm]

/-- Claim C18, witness: umask 022, six stale bytes in the pipe, one interrupted
wait: the probe returns 022. -/
theorem getumask_returns_umask_witness :
    0o22 < 2 ^ 32 ∧ (4321 : Int) ≠ -1 ∧ waitChild [EINTR] = none ∧
      unixL_getumask (fun _ => none) (4321, 0) [EINTR] [0, 0, 0, 0]
        { umask := 0o22, pipe := [0xff, 1, 0, 0, 0x3f, 0] } =
        (Outcome.returned 0o22, { umask := 0o22, pipe := [] }) :=
  ⟨by decide, by decide, by decide,
    getumask_returns_umask (fun _ => none) 4321 0 [EINTR] [0, 0, 0, 0]
      [0xff, 1, 0, 0, 0x3f, 0] 0o22 (by decide) (by decide) (by decide)⟩

/-! ## `unixL_optmode`: the who mask from clause to clause -/

/-- Claim C19, counterexample: for a regular file `u+r,+x` gives 0511, not 0500:
the second clause is applied through 0755, not through the owner mask of the
first. -/
theorem optmode_comma_resets_who :
    unixL_optmode (some "u+r,+x".toList) 0 0o100644 = some 0o511 ∧
      unixL_optmode (some "u+r,+x".toList) 0 0o100644 ≠ some 0o500 := by
  decide

theorem whoScan_op (svtx : Nat) (v : ModeVars) (op : Char) (rest : List Char)
    (hop : op = '+' ∨ op = '-' ∨ op = '=') :
    whoScan svtx v (op :: rest) = ({ v with op := op.toNat }, rest) := by
  rcases hop with rfl | rfl | rfl <;> simp [whoScan]

theorem whoScan_comma_op (svtx : Nat) (v : ModeVars) (op : Char) (rest : List Char)
    (hop : op = '+' ∨ op = '-' ∨ op = '=') :
    whoScan svtx v (',' :: op :: rest) = ({ v with omask := 0o755, op := op.toNat }, rest) := by
  rcases hop with rfl | rfl | rfl <;> simp [whoScan]

theorem applyOp_op0 (svtx : Nat) (v : ModeVars) (h : v.op = 0) :
    (applyOp svtx v).mode = v.mode := by
  simp [applyOp, h]

theorem optmode_u_r_x (dflt omode : Nat) :
    unixL_optmode (some "u+r+x".toList) dflt omode = some 0o500 := by
  rw [optmode_symbolic _ _ _ (by decide)]
  have h : luaL_checkstring "u+r+x".toList = ['u', '+', 'r', '+', 'x'] := by decide
  rw [h]
  cases hd : S_ISDIR omode <;>
    simp [symbolicMode, hd, modeLoop, clauseStep, whoScan, permScan, applyOp, isspace,
      modeNot, MODE_MAX] <;> decide

theorem optmode_u_r_comma_x (dflt omode : Nat) :
    unixL_optmode (some "u+r,+x".toList) dflt omode = some 0o511 := by
  rw [optmode_symbolic _ _ _ (by decide)]
  have h : luaL_checkstring "u+r,+x".toList = ['u', '+', 'r', ',', '+', 'x'] := by decide
  rw [h]
  cases hd : S_ISDIR omode <;>
    simp [symbolicMode, hd, modeLoop, clauseStep, whoScan, permScan, applyOp, isspace,
      modeNot, MODE_MAX] <;> decide

/-- Claim C19, amended: a clause that starts with its operator is applied
through the who mask of the clause before it, sticky bit excluded (and the
sticky bit added back for a directory), only when it follows that clause
directly; when a comma stands before the operator the mask is 0755 (with the
sticky bit for a directory) whatever the clause before selected. So `u+r+x`
gives 0500 and `u+r,+x` gives 0511, for every default and reference mode. -/
theorem who_mask_carry :
    (∀ (omode svtx mode mask : Nat) (op : Char) (rest : List Char),
      (op = '+' ∨ op = '-' ∨ op = '=') →
      clauseStep omode svtx mode mask (op :: rest) =
        (applyOp svtx (permScan omode
          { omask := modeNot 0o1000 &&& mask, mask := 0, perm := 0, mode := mode,
            op := op.toNat } rest).1,
          (permScan omode
            { omask := modeNot 0o1000 &&& mask, mask := 0, perm := 0, mode := mode,
              op := op.toNat } rest).2) ∧
      (clauseStep omode svtx mode mask (op :: rest)).1.mask =
        svtx ||| (modeNot 0o1000 &&& mask) ∧
      clauseStep omode svtx mode mask (',' :: op :: rest) =
        (applyOp svtx (permScan omode
          { omask := 0o755, mask := 0, perm := 0, mode := mode, op := op.toNat } rest).1,
          (permScan omode
            { omask := 0o755, mask := 0, perm := 0, mode := mode, op := op.toNat } rest).2) ∧
      (clauseStep omode svtx mode mask (',' :: op :: rest)).1.mask = svtx ||| 0o755) ∧
    (∀ dflt omode : Nat,
      unixL_optmode (some "u+r+x".toList) dflt omode = some 0o500 ∧
      unixL_optmode (some "u+r,+x".toList) dflt omode = some 0o511) := by
  refine ⟨?_, fun dflt omode => ⟨optmode_u_r_x dflt omode, optmode_u_r_comma_x dflt omode⟩⟩
  intro omode svtx mode mask op rest hop
  have h1 : clauseStep omode svtx mode mask (op :: rest) =
      (applyOp svtx (permScan omode
        { omask := modeNot 0o1000 &&& mask, mask := 0, perm := 0, mode := mode,
          op := op.toNat } rest).1,
        (permScan omode
          { omask := modeNot 0o1000 &&& mask, mask := 0, perm := 0, mode := mode,
            op := op.toNat } rest).2) := by
    simp only [clauseStep, whoScan_op _ _ _ _ hop]
  have h2 : clauseStep omode svtx mode mask (',' :: op :: rest) =
      (applyOp svtx (permScan omode
        { omask := 0o755, mask := 0, perm := 0, mode := mode, op := op.toNat } rest).1,
        (permScan omode
          { omask := 0o755, mask := 0, perm := 0, mode := mode, op := op.toNat } rest).2) := by
    simp only [clauseStep, whoScan_comma_op _ _ _ _ hop]
  refine ⟨h1, ?_, h2, ?_⟩
  · rw [h1]
    have hp := permScan_inv omode rest
      { omask := modeNot 0o1000 &&& mask, mask := 0, perm := 0, mode := mode, op := op.toNat }
    simp only [applyOp, hp.1, hp.2.1, if_true]
  · rw [h2]
    have hp := permScan_inv omode rest
      { omask := 0o755, mask := 0, perm := 0, mode := mode, op := op.toNat }
    simp only [applyOp, hp.1, hp.2.1, if_true]

/-- Claim C19, witness: after a clause that selected the owner (mask 04700), the
clause `+x` is applied through 04700 for a regular file, and `,+x` through
0755. -/
theorem who_mask_carry_witness :
    ('+' = '+' ∨ '+' = '-' ∨ '+' = '=') ∧
      (clauseStep 0o100644 0 0o400 0o4700 ['+', 'x']).1.mask = 0 ||| (modeNot 0o1000 &&& 0o4700) ∧
      (clauseStep 0o100644 0 0o400 0o4700 [',', '+', 'x']).1.mask = 0 ||| 0o755 :=
  ⟨Or.inl rfl, (who_mask_carry.1 0o100644 0 0o400 0o4700 '+' ['x'] (Or.inl rfl)).2.1,
    (who_mask_carry.1 0o100644 0 0o400 0o4700 '+' ['x'] (Or.inl rfl)).2.2.2⟩

/-! ## `unixL_optmode`: white space -/

theorem isspace_cases {c : Char} (h : isspace c = true) :
    c = ' ' ∨ c = Char.ofNat 9 ∨ c = Char.ofNat 10 ∨ c = Char.ofNat 11 ∨ c = Char.ofNat 12 ∨
      c = Char.ofNat 13 := by
  simpa [isspace, or_assoc] using h

theorem ws_facts {c : Char} (h : isspace c = true) :
    c ≠ 'u' ∧ c ≠ 'g' ∧ c ≠ 'o' ∧ c ≠ 'a' ∧ c ≠ '+' ∧ c ≠ '-' ∧ c ≠ '=' ∧ c ≠ ',' ∧
      c ≠ 'r' ∧ c ≠ 'w' ∧ c ≠ 'x' ∧ c ≠ 'X' ∧ c ≠ 's' ∧ c ≠ 't' ∧
      nonDecimal c = true ∧ (c != Char.ofNat 0) = true := by
  rcases isspace_cases h with rfl | rfl | rfl | rfl | rfl | rfl <;> decide

theorem sym_facts {c : Char} (h : c ∈ symbolicChars) :
    isspace c = false ∧ nonDecimal c = true ∧ (c != Char.ofNat 0) = true := by
  simp only [symbolicChars, List.mem_cons, List.mem_singleton, List.not_mem_nil, or_false] at h
  rcases h with rfl | rfl | rfl | rfl | rfl | rfl | rfl | rfl | rfl | rfl | rfl | rfl | rfl | rfl <;>
    decide

theorem whoScan_ws (svtx : Nat) (v : ModeVars) (w : Char) (l : List Char)
    (h : isspace w = true) : whoScan svtx v (w :: l) = whoScan svtx v l := by
  obtain ⟨h1, h2, h3, h4, h5, h6, h7, h8, _⟩ := ws_facts h
  simp [whoScan, h1, h2, h3, h4, h5, h6, h7, h8]

theorem permScan_ws (omode : Nat) (v : ModeVars) (w : Char) (l : List Char)
    (h : isspace w = true) : permScan omode v (w :: l) = permScan omode v l := by
  obtain ⟨h1, h2, h3, _, _, _, _, _, h9, h10, h11, h12, h13, h14, _⟩ := ws_facts h
  simp [permScan, h1, h2, h3, h9, h10, h11, h12, h13, h14, h]

/-- One character of the who loop, whatever follows it: it is consumed and the
loop goes on, or it is an operator and the loop ends behind it. -/
theorem whoScan_cons_uniform (svtx : Nat) (v : ModeVars) (c : Char) :
    (∃ v', ∀ cs, whoScan svtx v (c :: cs) = whoScan svtx v' cs) ∨
      (∃ v', ∀ cs, whoScan svtx v (c :: cs) = (v', cs)) := by
  by_cases h1 : c = 'u'
  · exact Or.inl ⟨_, fun cs => by simp only [whoScan]; rw [if_pos h1]⟩
  by_cases h2 : c = 'g'
  · exact Or.inl ⟨_, fun cs => by simp only [whoScan]; rw [if_neg h1, if_pos h2]⟩
  by_cases h3 : c = 'o'
  · exact Or.inl ⟨_, fun cs => by simp only [whoScan]; rw [if_neg h1, if_neg h2, if_pos h3]⟩
  by_cases h4 : c = 'a'
  · exact Or.inl ⟨_, fun cs => by
      simp only [whoScan]; rw [if_neg h1, if_neg h2, if_neg h3, if_pos h4]⟩
  by_cases h5 : c = '+' ∨ c = '-' ∨ c = '='
  · exact Or.inr ⟨_, fun cs => by
      simp only [whoScan]; rw [if_neg h1, if_neg h2, if_neg h3, if_neg h4, if_pos h5]⟩
  by_cases h6 : c = ','
  · exact Or.inl ⟨_, fun cs => by
      simp only [whoScan]; rw [if_neg h1, if_neg h2, if_neg h3, if_neg h4, if_neg h5, if_pos h6]⟩
  · exact Or.inl ⟨v, fun cs => by
      simp only [whoScan]; rw [if_neg h1, if_neg h2, if_neg h3, if_neg h4, if_neg h5, if_neg h6]⟩

/-- One character of the `perms` loop, whatever follows it: it is consumed and
the loop goes on, or the loop stops in front of it. -/
theorem permScan_cons_uniform (omode : Nat) (v : ModeVars) (c : Char) :
    (∃ v', ∀ cs, permScan omode v (c :: cs) = permScan omode v' cs) ∨
      (∀ cs, permScan omode v (c :: cs) = (v, c :: cs)) := by
  by_cases h1 : c = 'r'
  · exact Or.inl ⟨_, fun cs => by simp only [permScan]; rw [if_pos h1]⟩
  by_cases h2 : c = 'w'
  · exact Or.inl ⟨_, fun cs => by simp only [permScan]; rw [if_neg h1, if_pos h2]⟩
  by_cases h3 : c = 'x'
  · exact Or.inl ⟨_, fun cs => by simp only [permScan]; rw [if_neg h1, if_neg h2, if_pos h3]⟩
  by_cases h4 : c = 'X'
  · by_cases hX : S_ISDIR omode = true ∨ omode &&& 0o111 ≠ 0
    · exact Or.inl ⟨_, fun cs => by
        simp only [permScan]; rw [if_neg h1, if_neg h2, if_neg h3, if_pos h4, if_pos hX]⟩
    · exact Or.inl ⟨v, fun cs => by
        simp only [permScan]; rw [if_neg h1, if_neg h2, if_neg h3, if_pos h4, if_neg hX]⟩
  by_cases h5 : c = 's'
  · exact Or.inl ⟨_, fun cs => by
      simp only [permScan]; rw [if_neg h1, if_neg h2, if_neg h3, if_neg h4, if_pos h5]⟩
  by_cases h6 : c = 't'
  · exact Or.inl ⟨_, fun cs => by
      simp only [permScan]
      rw [if_neg h1, if_neg h2, if_neg h3, if_neg h4, if_neg h5, if_pos h6]⟩
  by_cases h7 : c = 'u'
  · exact Or.inl ⟨_, fun cs => by
      simp only [permScan]
      rw [if_neg h1, if_neg h2, if_neg h3, if_neg h4, if_neg h5, if_neg h6, if_pos h7]⟩
  by_cases h8 : c = 'g'
  · exact Or.inl ⟨_, fun cs => by
      simp only [permScan]
      rw [if_neg h1, if_neg h2, if_neg h3, if_neg h4, if_neg h5, if_neg h6, if_neg h7,
        if_pos h8]⟩
  by_cases h9 : c = 'o'
  · exact Or.inl ⟨_, fun cs => by
      simp only [permScan]
      rw [if_neg h1, if_neg h2, if_neg h3, if_neg h4, if_neg h5, if_neg h6, if_neg h7,
        if_neg h8, if_pos h9]⟩
  by_cases hs : isspace c = true
  · exact Or.inl ⟨v, fun cs => by
      simp only [permScan]
      rw [if_neg h1, if_neg h2, if_neg h3, if_neg h4, if_neg h5, if_neg h6, if_neg h7,
        if_neg h8, if_neg h9, if_pos hs]⟩
  · exact Or.inr (fun cs => by
      simp only [permScan]
      rw [if_neg h1, if_neg h2, if_neg h3, if_neg h4, if_neg h5, if_neg h6, if_neg h7,
        if_neg h8, if_neg h9, if_neg hs])

theorem whoScan_filter (svtx : Nat) (l : List Char) :
    ∀ v : ModeVars, whoScan svtx v (l.filter (fun c => !isspace c)) =
      ((whoScan svtx v l).1, (whoScan svtx v l).2.filter (fun c => !isspace c)) := by
  induction l with
  | nil => intro v; rfl
  | cons c cs ih =>
    intro v
    by_cases hc : isspace c = true
    · rw [whoScan_ws svtx v c cs hc, List.filter_cons_of_neg (by simp [hc])]
      exact ih v
    · rw [List.filter_cons_of_pos (by simpa using hc)]
      rcases whoScan_cons_uniform svtx v c with ⟨v', hv⟩ | ⟨v', hv⟩
      · rw [hv, hv]; exact ih v'
      · rw [hv, hv]

theorem permScan_filter (omode : Nat) (l : List Char) :
    ∀ v : ModeVars, permScan omode v (l.filter (fun c => !isspace c)) =
      ((permScan omode v l).1, (permScan omode v l).2.filter (fun c => !isspace c)) := by
  induction l with
  | nil => intro v; rfl
  | cons c cs ih =>
    intro v
    by_cases hc : isspace c = true
    · rw [permScan_ws omode v c cs hc, List.filter_cons_of_neg (by simp [hc])]
      exact ih v
    · rw [List.filter_cons_of_pos (by simpa using hc)]
      rcases permScan_cons_uniform omode v c with ⟨v', hv⟩ | hv
      · rw [hv, hv]; exact ih v'
      · rw [hv, hv, List.filter_cons_of_pos (by simpa using hc)]

theorem clauseStep_filter (omode svtx mode mask : Nat) (l : List Char) :
    clauseStep omode svtx mode mask (l.filter (fun c => !isspace c)) =
      ((clauseStep omode svtx mode mask l).1,
        (clauseStep omode svtx mode mask l).2.filter (fun c => !isspace c)) := by
  simp only [clauseStep, whoScan_filter, permScan_filter]

theorem clauseStep_nil_mode (omode svtx mode mask : Nat) :
    (clauseStep omode svtx mode mask []).1.mode = mode ∧
      (clauseStep omode svtx mode mask []).2 = [] := by
  simp [clauseStep, whoScan, permScan, applyOp]

theorem modeLoop_nil (omode svtx fuel mode mask : Nat) :
    modeLoop omode svtx fuel mode mask [] = some mode := by
  cases fuel <;> rfl

theorem modeLoop_filter (omode svtx : Nat) (fuel : Nat) :
    ∀ (l : List Char) (mode mask m : Nat), modeLoop omode svtx fuel mode mask l = some m →
      modeLoop omode svtx fuel mode mask (l.filter (fun c => !isspace c)) = some m := by
  induction fuel with
  | zero =>
    intro l mode mask m h
    cases l with
    | nil => exact h
    | cons c cs => simp [modeLoop] at h
  | succ fuel ih =>
    intro l mode mask m h
    cases l with
    | nil => exact h
    | cons c cs =>
      simp only [modeLoop] at h
      have hih := ih _ _ _ _ h
      have hf := clauseStep_filter omode svtx mode mask (c :: cs)
      cases hfl : (c :: cs).filter (fun c => !isspace c) with
      | nil =>
        rw [hfl] at hf
        have hn := clauseStep_nil_mode omode svtx mode mask
        have e1 : (clauseStep omode svtx mode mask (c :: cs)).1 =
            (clauseStep omode svtx mode mask []).1 := (congrArg Prod.fst hf).symm
        have e2 : (clauseStep omode svtx mode mask (c :: cs)).2.filter
            (fun c => !isspace c) = (clauseStep omode svtx mode mask []).2 :=
          (congrArg Prod.snd hf).symm
        have h1 : (clauseStep omode svtx mode mask (c :: cs)).1.mode = mode := by
          rw [e1]; exact hn.1
        have h2 : (clauseStep omode svtx mode mask (c :: cs)).2.filter
            (fun c => !isspace c) = [] := by
          rw [e2]; exact hn.2
        rw [h2, modeLoop_nil, h1] at hih
        rw [modeLoop_nil]; exact hih
      | cons d ds =>
        rw [hfl] at hf
        simp only [modeLoop]
        rw [hf]
        exact hih

theorem symbolicMode_filter (fuel : Nat) (l : List Char) (omode m : Nat)
    (h : symbolicMode fuel l omode = some m) :
    symbolicMode fuel (l.filter (fun c => !isspace c)) omode = some m := by
  simp only [symbolicMode] at h ⊢
  exact modeLoop_filter omode _ fuel l 0 0o755 m h

theorem nonDecimal_scan (l : List Char) (h : ∀ c ∈ l, nonDecimal c = true) :
    scanBase l = (10, l) ∧ scanDigits 10 0 l = (0, l) := by
  cases l with
  | nil => exact ⟨rfl, rfl⟩
  | cons c cs =>
    have hc := h c (List.mem_cons_self _ _)
    simp only [nonDecimal, Bool.and_eq_true, bne_iff_ne, ne_eq] at hc
    refine ⟨by simp [scanBase, hc.1], ?_⟩
    cases hd : digitVal c with
    | none => simp [scanDigits, hd]
    | some d =>
      rw [hd] at hc
      have : ¬ d < 10 := by
        have := hc.2
        simp only [decide_eq_true_eq] at this
        omega
      simp [scanDigits, hd, this]

theorem scanSign_sub (l : List Char) :
    (scanSign l).2 = l ∨ ∃ c, l = c :: (scanSign l).2 := by
  cases l with
  | nil => exact Or.inl rfl
  | cons c cs =>
    simp only [scanSign]
    split_ifs
    · exact Or.inr ⟨c, rfl⟩
    · exact Or.inr ⟨c, rfl⟩
    · exact Or.inl rfl

theorem strtoul_no_digits (l : List Char) (h : ∀ c ∈ l, nonDecimal c = true) :
    strtoul l = (0, l) := by
  have h1 : ∀ c ∈ l.dropWhile isspace, nonDecimal c = true :=
    fun c hc => h c ((List.dropWhile_sublist _).subset hc)
  have h2 : ∀ c ∈ (scanSign (l.dropWhile isspace)).2, nonDecimal c = true := by
    intro c hc
    rcases scanSign_sub (l.dropWhile isspace) with he | ⟨d, he⟩
    · rw [he] at hc; exact h1 c hc
    · apply h1 c; rw [he]; exact List.mem_cons_of_mem _ hc
  obtain ⟨hb, hd⟩ := nonDecimal_scan _ h2
  simp only [strtoul, hb, hd, if_true]

theorem mixed_facts (l : List Char)
    (h : ∀ c ∈ l, c ∈ symbolicChars ∨ isspace c = true) :
    (∀ c ∈ l, nonDecimal c = true) ∧ luaL_checkstring l = l := by
  have hall : ∀ c ∈ l, nonDecimal c = true ∧ (c != Char.ofNat 0) = true := by
    intro c hc
    rcases h c hc with hs | hw
    · exact (sym_facts hs).2
    · exact ⟨(ws_facts hw).2.2.2.2.2.2.2.2.2.2.2.2.2.2.1, (ws_facts hw).2.2.2.2.2.2.2.2.2.2.2.2.2.2.2⟩
  refine ⟨fun c hc => (hall c hc).1, ?_⟩
  unfold luaL_checkstring
  rw [List.takeWhile_eq_self_iff]
  exact fun c hc => (hall c hc).2

theorem optmode_mixed (l : List Char) (dflt omode : Nat)
    (h : ∀ c ∈ l, c ∈ symbolicChars ∨ isspace c = true) :
    unixL_optmode (some l) dflt omode = symbolicMode l.length l omode := by
  obtain ⟨h1, h2⟩ := mixed_facts l h
  have h3 := strtoul_no_digits l h1
  have := optmode_symbolic l dflt omode (by
    rw [h2, h3]
    simp)
  rw [this, h2]

theorem wsInsert_filter (s t : List Char) (h : WsInsert s t)
    (hs : ∀ c ∈ s, c ∈ symbolicChars) :
    t.filter (fun c => !isspace c) = s ∧ ∀ c ∈ t, c ∈ symbolicChars ∨ isspace c = true := by
  induction h with
  | nil => exact ⟨rfl, fun c hc => by simp at hc⟩
  | keep c s t _ ih =>
    have hc := hs c (List.mem_cons_self _ _)
    obtain ⟨i1, i2⟩ := ih (fun x hx => hs x (List.mem_cons_of_mem _ hx))
    refine ⟨?_, ?_⟩
    · rw [List.filter_cons_of_pos (by simp [(sym_facts hc).1]), i1]
    · intro x hx
      rcases List.mem_cons.mp hx with rfl | hx
      · exact Or.inl hc
      · exact i2 x hx
  | ins w s t hw _ ih =>
    obtain ⟨i1, i2⟩ := ih hs
    refine ⟨?_, ?_⟩
    · rw [List.filter_cons_of_neg (by simp [hw]), i1]
    · intro x hx
      rcases List.mem_cons.mp hx with rfl | hx
      · exact Or.inr hw
      · exact i2 x hx

/-- Claim C20: for a string `s` of symbolic-mode characters and a string `t` that
is `s` with white space inserted anywhere, `unixL_optmode` returns for `t`
what it returns for `s`, for every default and reference mode. -/
theorem optmode_ignores_whitespace (s t : List Char) (dflt omode : Nat)
    (hs : ∀ c ∈ s, c ∈ symbolicChars) (hins : WsInsert s t) :
    unixL_optmode (some t) dflt omode = unixL_optmode (some s) dflt omode := by
  obtain ⟨hf, ht⟩ := wsInsert_filter s t hins hs
  rw [optmode_mixed t dflt omode ht, optmode_mixed s dflt omode (fun c hc => Or.inl (hs c hc))]
  obtain ⟨m, hm, _⟩ := symbolicMode_fuel t omode
  obtain ⟨m', hm', hfuel⟩ := symbolicMode_fuel s omode
  have h1 := symbolicMode_filter t.length t omode m hm
  rw [hf] at h1
  have hlen : s.length ≤ t.length := by
    rw [← hf]; exact List.length_filter_le _ _
  rw [hm, hm', ← h1, hfuel t.length hlen]

/-- Claim C20, witness: `u+x` and the same with blanks and a tab inserted. -/
theorem optmode_ignores_whitespace_witness :
    (∀ c ∈ "u+x".toList, c ∈ symbolicChars) ∧
      WsInsert "u+x".toList [' ', 'u', Char.ofNat 9, '+', ' ', 'x', ' '] ∧
      unixL_optmode (some [' ', 'u', Char.ofNat 9, '+', ' ', 'x', ' ']) 0o644 0o100644 =
        unixL_optmode (some "u+x".toList) 0o644 0o100644 ∧
      unixL_optmode (some [' ', 'u', Char.ofNat 9, '+', ' ', 'x', ' ']) 0o644 0o100644 =
        some 0o100 := by
  have hw : WsInsert "u+x".toList [' ', 'u', Char.ofNat 9, '+', ' ', 'x', ' '] :=
    WsInsert.ins _ _ _ (by decide) (WsInsert.keep _ _ _ (WsInsert.ins _ _ _ (by decide)
      (WsInsert.keep _ _ _ (WsInsert.ins _ _ _ (by decide) (WsInsert.keep _ _ _
        (WsInsert.ins _ _ _ (by decide) WsInsert.nil))))))
  exact ⟨by decide, hw,
    optmode_ignores_whitespace "u+x".toList _ 0o644 0o100644 (by decide) hw, by decide⟩

/-! ## `unixL_optmode`: the sticky bit -/

theorem and_and_zero_left (a x b : Nat) (h : a &&& b = 0) : (a &&& x) &&& b = 0 := by
  rw [Nat.land_assoc, Nat.land_comm x b, ← Nat.land_assoc, h, Nat.zero_and]

theorem and_and_zero_right (a x b : Nat) (h : a &&& b = 0) : (x &&& a) &&& b = 0 := by
  rw [Nat.land_assoc, h, Nat.and_zero]

theorem or_and_zero (a c b : Nat) (ha : a &&& b = 0) (hc : c &&& b = 0) :
    (a ||| c) &&& b = 0 := by
  rw [or_and_of_disjoint _ _ _ hc]; exact ha

/-- With a reference that is not a directory the who loop never selects the
sticky bit. -/
theorem whoScan_sticky (l : List Char) :
    ∀ v : ModeVars, v.mask &&& 0o1000 = 0 → v.omask &&& 0o1000 = 0 →
      (whoScan 0 v l).1.mask &&& 0o1000 = 0 ∧ (whoScan 0 v l).1.omask &&& 0o1000 = 0 ∧
        (whoScan 0 v l).1.mode = v.mode := by
  induction l with
  | nil => intro v hm ho; exact ⟨hm, ho, rfl⟩
  | cons c cs ih =>
    intro v hm ho
    simp only [whoScan]
    split_ifs
    · exact ih _ (or_and_zero _ _ _ hm (by decide)) ho
    · exact ih _ (or_and_zero _ _ _ hm (by decide)) ho
    · exact ih _ (or_and_zero _ _ _ hm (by decide)) ho
    · exact ih _ (or_and_zero _ _ _ hm (by decide)) ho
    · exact ⟨hm, ho, rfl⟩
    · exact ih _ hm (show (0o755 : Nat) &&& 0o1000 = 0 by decide)
    · exact ih _ hm ho

theorem applyOp_sticky (v : ModeVars) (hm : v.mask &&& 0o1000 = 0)
    (ho : v.omask &&& 0o1000 = 0) (hmode : v.mode &&& 0o1000 = 0) :
    (applyOp 0 v).mask &&& 0o1000 = 0 ∧ (applyOp 0 v).mode &&& 0o1000 = 0 := by
  have hmask : (if v.mask = 0 then 0 ||| v.omask else v.mask) &&& 0o1000 = 0 := by
    split_ifs
    · rw [Nat.zero_or]; exact ho
    · exact hm
  refine ⟨hmask, ?_⟩
  simp only [applyOp]
  split_ifs
  all_goals first
    | exact hmode
    | exact and_and_zero_left _ _ _ hmode
    | exact or_and_zero _ _ _ hmode (and_and_zero_left _ _ _ (by simpa using ho))
    | exact or_and_zero _ _ _ hmode (and_and_zero_left _ _ _ hm)
    | exact and_and_zero_left _ _ _ (by simpa using ho)
    | exact and_and_zero_left _ _ _ hm

theorem clauseStep_sticky (omode mode mask : Nat) (hmode : mode &&& 0o1000 = 0)
    (fmt : List Char) :
    (clauseStep omode 0 mode mask fmt).1.mask &&& 0o1000 = 0 ∧
      (clauseStep omode 0 mode mask fmt).1.mode &&& 0o1000 = 0 := by
  have ho : (modeNot 0o1000 &&& mask) &&& 0o1000 = 0 :=
    and_and_zero_left _ _ _ (by decide)
  have hw := whoScan_sticky fmt
    { omask := modeNot 0o1000 &&& mask, mask := 0, perm := 0, mode := mode, op := 0 }
    (show (0 : Nat) &&& 0o1000 = 0 by decide) ho
  have hp := permScan_inv omode
    (whoScan 0
      { omask := modeNot 0o1000 &&& mask, mask := 0, perm := 0, mode := mode, op := 0 } fmt).2
    (whoScan 0
      { omask := modeNot 0o1000 &&& mask, mask := 0, perm := 0, mode := mode, op := 0 } fmt).1
  simp only [clauseStep]
  apply applyOp_sticky
  · rw [hp.1]; exact hw.1
  · rw [hp.2.1]; exact hw.2.1
  · rw [hp.2.2.1, hw.2.2]; exact hmode

theorem modeLoop_sticky (omode : Nat) (fuel : Nat) :
    ∀ (fmt : List Char) (mode mask m : Nat), mode &&& 0o1000 = 0 →
      modeLoop omode 0 fuel mode mask fmt = some m → m &&& 0o1000 = 0 := by
  induction fuel with
  | zero =>
    intro fmt mode mask m hmode h
    cases fmt with
    | nil =>
      simp only [modeLoop, Option.some.injEq] at h
      rw [← h]; exact hmode
    | cons c cs => simp [modeLoop] at h
  | succ n ih =>
    intro fmt mode mask m hmode h
    cases fmt with
    | nil =>
      simp only [modeLoop, Option.some.injEq] at h
      rw [← h]; exact hmode
    | cons c cs =>
      simp only [modeLoop] at h
      exact ih _ _ _ m (clauseStep_sticky omode mode mask hmode (c :: cs)).2 h

theorem symbolicMode_sticky (fuel : Nat) (fmt : List Char) (omode m : Nat)
    (hd : S_ISDIR omode = false) (h : symbolicMode fuel fmt omode = some m) :
    m &&& 0o1000 = 0 := by
  simp only [symbolicMode, hd] at h
  exact modeLoop_sticky omode fuel fmt 0 0o755 m (by decide) (by simpa using h)

theorem optmode_plus_t (dflt omode : Nat) :
    unixL_optmode (some "+t".toList) dflt omode =
      some (if S_ISDIR omode = true then 0o1000 else 0) := by
  rw [optmode_symbolic _ _ _ (by decide)]
  have h : luaL_checkstring "+t".toList = ['+', 't'] := by decide
  rw [h]
  cases hd : S_ISDIR omode <;>
    simp [symbolicMode, hd, modeLoop, clauseStep, whoScan, permScan, applyOp, modeNot,
      MODE_MAX] <;> decide

/-- Claim C21: for every string that is parsed symbolically and every reference
mode that is not a directory, the result of `unixL_optmode` has the sticky bit
clear; the clause `+t`, which names no who-selector, gives 01000 when the
reference is a directory and 0 otherwise. -/
theorem sticky_only_for_directory :
    (∀ (s : List Char) (dflt omode : Nat), S_ISDIR omode = false →
      ¬((strtoul (luaL_checkstring s)).2 = [] ∧
        (strtoul (luaL_checkstring s)).2.length ≠ (luaL_checkstring s).length) →
      ∃ m, unixL_optmode (some s) dflt omode = some m ∧ m &&& 0o1000 = 0) ∧
    (∀ dflt omode : Nat,
      unixL_optmode (some "+t".toList) dflt omode =
        some (if S_ISDIR omode = true then 0o1000 else 0)) := by
  refine ⟨?_, optmode_plus_t⟩
  intro s dflt omode hd hsym
  obtain ⟨m, hm, _⟩ := symbolicMode_fuel (luaL_checkstring s) omode
  refine ⟨m, ?_, symbolicMode_sticky _ _ _ _ hd hm⟩
  rw [optmode_symbolic s dflt omode hsym]
  exact hm

/-- Claim C21, witness: `a+rwxt` on a regular file gives 0777 without the sticky
bit, and `+t` on a directory gives 01000. -/
theorem sticky_only_for_directory_witness :
    S_ISDIR 0o100644 = false ∧
      ¬((strtoul (luaL_checkstring "a+rwxt".toList)).2 = [] ∧
        (strtoul (luaL_checkstring "a+rwxt".toList)).2.length ≠
          (luaL_checkstring "a+rwxt".toList).length) ∧
      unixL_optmode (some "a+rwxt".toList) 0 0o100644 = some 0o777 ∧
      (∃ m, unixL_optmode (some "a+rwxt".toList) 0 0o100644 = some m ∧ m &&& 0o1000 = 0) ∧
      unixL_optmode (some "+t".toList) 0 0o040755 = some 0o1000 ∧
      unixL_optmode (some "a+rwxt".toList) 0 0o040755 = some 0o1777 :=
  ⟨by decide, by decide, by decide,
    sticky_only_for_directory.1 "a+rwxt".toList 0 0o100644 (by decide) (by decide),
    by decide, by decide⟩

/-! ## `u_power2` -/

/-- One smearing step `x |= x >> D`: if bit `n` of `x` is set exactly when `j` has
a set bit among the `D` positions from `n` upwards, then afterwards the same
holds with `2 * D` positions. -/
theorem smear_step (j x D : Nat)
    (h : ∀ n, x.testBit n = true ↔ ∃ d, d < D ∧ j.testBit (n + d) = true) :
    ∀ n, (x ||| (x >>> D)).testBit n = true ↔ ∃ d, d < 2 * D ∧ j.testBit (n + d) = true := by
  intro n
  rw [Nat.testBit_or, Nat.testBit_shiftRight, Bool.or_eq_true, h n, h (D + n)]
  constructor
  · rintro (⟨d, hd, hb⟩ | ⟨d, hd, hb⟩)
    · exact ⟨d, by omega, hb⟩
    · refine ⟨D + d, by omega, ?_⟩
      rw [← hb]; congr 1; omega
  · rintro ⟨d, hd, hb⟩
    by_cases hlt : d < D
    · exact Or.inl ⟨d, hlt, hb⟩
    · refine Or.inr ⟨d - D, by omega, ?_⟩
      rw [← hb]; congr 1; omega

theorem smear_base (j : Nat) :
    ∀ n, j.testBit n = true ↔ ∃ d, d < 1 ∧ j.testBit (n + d) = true := by
  intro n
  constructor
  · intro h; exact ⟨0, by omega, h⟩
  · rintro ⟨d, hd, hb⟩
    have : d = 0 := by omega
    subst this
    exact hb

/-- A number whose bit `n` is set exactly when `j` has a set bit among the `D`
positions from `n` upwards is `2 ^ size j - 1`, where `D` reaches the top bit
of `j`. -/
theorem smear_full (j x D : Nat) (hD : j < 2 ^ D)
    (h : ∀ n, x.testBit n = true ↔ ∃ d, d < D ∧ j.testBit (n + d) = true) :
    x = 2 ^ Nat.size j - 1 := by
  apply Nat.eq_of_testBit_eq
  intro n
  rw [Nat.testBit_two_pow_sub_one]
  by_cases hn : n < Nat.size j
  · rw [decide_eq_true hn, h n]
    have hpos : 0 < Nat.size j := by omega
    have hge : 2 ^ (Nat.size j - 1) ≤ j := Nat.lt_size.mp (by omega)
    obtain ⟨t, ht, hbit⟩ := Nat.ge_two_pow_implies_high_bit_true hge
    have htD : t < D := by
      by_contra hcon
      have : j < 2 ^ t := lt_of_lt_of_le hD (Nat.pow_le_pow_right (by norm_num) (by omega))
      rw [Nat.testBit_lt_two_pow this] at hbit
      exact Bool.noConfusion hbit
    refine ⟨t - n, by omega, ?_⟩
    rw [← hbit]; congr 1; omega
  · rw [decide_eq_false hn]
    cases hx : x.testBit n with
    | false => rfl
    | true =>
      exfalso
      obtain ⟨d, _, hb⟩ := (h n).mp hx
      have : j < 2 ^ (n + d) :=
        lt_of_lt_of_le (Nat.lt_size_self j) (Nat.pow_le_pow_right (by norm_num) (by omega))
      rw [Nat.testBit_lt_two_pow this] at hb
      exact Bool.noConfusion hb

theorem sizeMax_eq_iff (w : Nat) : SIZE_MAX w = 0xffffffff ↔ w = 32 := by
  unfold SIZE_MAX
  constructor
  · intro h
    have h1 : 2 ^ w = 2 ^ 32 := by
      have := Nat.one_le_two_pow (n := w)
      omega
    exact Nat.pow_right_injective (le_refl 2) h1
  · rintro rfl; norm_num

/-- The value of `u_power2`: for `1 ≤ i ≤ 2 ^ (w - 1)` and a width of at most 64
bits it is `2 ^ size (i - 1)`. -/
theorem u_power2_eq (w i : Nat) (hw1 : 1 ≤ w) (hw : w ≤ 64) (h1 : 1 ≤ i)
    (h2 : i ≤ 2 ^ (w - 1)) : u_power2 w i = 2 ^ Nat.size (i - 1) := by
  have hpw : 2 ^ w = 2 * 2 ^ (w - 1) := by
    rw [← pow_succ']; congr 1; omega
  have hdec : (i + (2 ^ w - 1)) % 2 ^ w = i - 1 := by
    have : i + (2 ^ w - 1) = (i - 1) + 2 ^ w := by omega
    rw [this, Nat.add_mod_right, Nat.mod_eq_of_lt (by omega)]
  have hj : i - 1 < 2 ^ (w - 1) := by omega
  have hsize : Nat.size (i - 1) ≤ w - 1 := Nat.size_le.mpr hj
  have hres : 2 ^ Nat.size (i - 1) ≤ 2 ^ (w - 1) := Nat.pow_le_pow_right (by norm_num) hsize
  have hpos : 0 < 2 ^ Nat.size (i - 1) := Nat.pos_pow_of_pos _ (by norm_num)
  have s1 := smear_step (i - 1) _ 1 (smear_base (i - 1))
  have s2 := smear_step (i - 1) _ 2 s1
  have s4 := smear_step (i - 1) _ 4 s2
  have s8 := smear_step (i - 1) _ 8 s4
  have s16 := smear_step (i - 1) _ 16 s8
  have s32 := smear_step (i - 1) _ 32 s16
  simp only [u_power2, hdec]
  by_cases h32 : w = 32
  · have hsm : ¬ SIZE_MAX w ≠ 0xffffffff := by
      rw [ne_eq, not_not]; exact (sizeMax_eq_iff w).mpr h32
    rw [if_neg hsm]
    have hD : i - 1 < 2 ^ (2 * 16) :=
      lt_of_lt_of_le hj (Nat.pow_le_pow_right (by norm_num) (by omega))
    rw [smear_full (i - 1) _ (2 * 16) hD s16]
    rw [Nat.sub_add_cancel hpos, Nat.mod_eq_of_lt (by omega)]
  · have hsm : SIZE_MAX w ≠ 0xffffffff := fun h => h32 ((sizeMax_eq_iff w).mp h)
    rw [if_pos hsm]
    have hD : i - 1 < 2 ^ (2 * 32) :=
      lt_of_lt_of_le hj (Nat.pow_le_pow_right (by norm_num) (by omega))
    rw [smear_full (i - 1) _ (2 * 32) hD s32]
    rw [Nat.sub_add_cancel hpos, Nat.mod_eq_of_lt (by omega)]

/-- Claim C22: for a `size_t` of `w` bits (`w` at most 64, as the shifts of the
source reach) and `1 ≤ i ≤ 2 ^ (w - 1)`, `u_power2 i` is a power of two, is at
least `i`, is at most every power of two that is at least `i`, is below
`2 * i`, and is `i` itself when `i` is a power of two. -/
theorem u_power2_least (w i : Nat) (hw1 : 1 ≤ w) (hw : w ≤ 64) (h1 : 1 ≤ i)
    (h2 : i ≤ 2 ^ (w - 1)) :
    (∃ k, u_power2 w i = 2 ^ k) ∧ i ≤ u_power2 w i ∧
      (∀ k, i ≤ 2 ^ k → u_power2 w i ≤ 2 ^ k) ∧ u_power2 w i < 2 * i ∧
      ((∃ k, i = 2 ^ k) → u_power2 w i = i) := by
  have heq := u_power2_eq w i hw1 hw h1 h2
  have hup : i - 1 < 2 ^ Nat.size (i - 1) := Nat.lt_size_self _
  have hleast : ∀ k, i ≤ 2 ^ k → 2 ^ Nat.size (i - 1) ≤ 2 ^ k := by
    intro k hk
    apply Nat.pow_le_pow_right (by norm_num)
    exact Nat.size_le.mpr (by omega)
  have hlt : 2 ^ Nat.size (i - 1) < 2 * i := by
    by_cases hs : Nat.size (i - 1) = 0
    · rw [hs]; omega
    · have hge : 2 ^ (Nat.size (i - 1) - 1) ≤ i - 1 := Nat.lt_size.mp (by omega)
      have : 2 ^ Nat.size (i - 1) = 2 * 2 ^ (Nat.size (i - 1) - 1) := by
        rw [← pow_succ']; congr 1; omega
      omega
  rw [heq]
  refine ⟨⟨_, rfl⟩, by omega, hleast, hlt, ?_⟩
  rintro ⟨k, hk⟩
  have := hleast k (le_of_eq hk)
  omega

/-- Claim C22, witness: with a 64-bit `size_t`, `u_power2 129` is 256. -/
theorem u_power2_least_witness :
    1 ≤ 64 ∧ 64 ≤ 64 ∧ 1 ≤ 129 ∧ 129 ≤ 2 ^ (64 - 1) ∧ u_power2 64 129 = 256 ∧
      129 ≤ u_power2 64 129 ∧ u_power2 64 129 < 2 * 129 :=
  ⟨by decide, by decide, by decide, by decide, by decide,
    (u_power2_least 64 129 (by decide) (by decide) (by decide) (by decide)).2.1,
    (u_power2_least 64 129 (by decide) (by decide) (by decide) (by decide)).2.2.2.1⟩

end Lunix
